import Mathlib

/-!
Verification of poly_exp.hpp: maximum subarray (two algorithms) and subset sum.

A shallow embedding of `src/poly_exp.hpp`.

* A `std::vector<int>` is a `List Int`; an iterator into it is the index it points at.
* C++ `int` arithmetic is arithmetic on `Int` followed by `wrap`, the reduction to the
  32-bit two's-complement range.
* A function that can stop on an `assert` or fail to return produces an `Outcome`.
* Indices and lengths are natural numbers: the `int` index arithmetic of the source
  (`low + high`, `i++`) is exact for vectors of fewer than `2^30` elements.
-/

namespace subarray

/-! ## Machine integers and outcomes -/

/-- The value a 32-bit two's-complement `int` holds after computing the integer `x`. -/
def wrap (x : Int) : Int := (x + 2147483648) % 4294967296 - 2147483648

/-- The ways a call can end: it returns a value, it stops on a failed `assert`, or it
never returns. -/
inductive Outcome (α : Type) where
  | ret (a : α)
  | abort
  | hang
deriving DecidableEq, Repr

/-! ## summed_span -/

/-- The class `summed_span`: begin and end iterators (as indices into the input vector)
and the stored sum. -/
structure summed_span where
  begin_ : Nat
  end_ : Nat
  sum_ : Int
deriving DecidableEq, Repr

/-- The elements of `input` in the iterator range `[b, e)`. -/
def slice (input : List Int) (b e : Nat) : List Int := (input.drop b).take (e - b)

/-- The call `std::accumulate(first, last, 0)` over `int`s: a left fold of `int` addition. -/
def accumulate (xs : List Int) : Int := xs.foldl (fun acc x => wrap (acc + x)) 0

/-- The two-iterator constructor `summed_span(begin, end)`: it sums the range with
`std::accumulate` and delegates to the three-argument constructor, whose body is
`assert(begin < end)`. When `end` comes before `begin` the accumulation itself already runs
off the range; that case is an `abort` here as well. -/
def summed_span.mk2 (input : List Int) (b e : Nat) : Outcome summed_span :=
  if b < e then Outcome.ret ⟨b, e, accumulate (slice input b e)⟩ else Outcome.abort

/-! ## max_subarray_exh -/

/-- The local variables `sum_best`, `sum`, `b`, `e` of `max_subarray_exh`. -/
structure exh_state where
  sum_best : Int
  sum : Int
  b : Nat
  e : Nat
deriving DecidableEq, Repr

/-- The inner loop `for (int j = i+1; j <= input.size()-1; j++)` of `max_subarray_exh`;
the first argument counts the iterations still to run, the second is `j`. -/
def exh_inner (input : List Int) (i : Nat) : Nat → Nat → exh_state → exh_state
  | 0, _, s => s
  | k + 1, j, s =>
    let sum := wrap (s.sum + input.getD j 0)
    if sum > s.sum_best then exh_inner input i k (j + 1) ⟨sum, sum, i, j⟩
    else exh_inner input i k (j + 1) ⟨s.sum_best, sum, s.b, s.e⟩

/-- The outer loop `for (int i = 0; i <= input.size()-2; i++)` of `max_subarray_exh`;
the first argument counts the iterations still to run, the second is `i`. -/
def exh_outer (input : List Int) : Nat → Nat → exh_state → exh_state
  | 0, _, s => s
  | k + 1, i, s =>
    let sum := input.getD i 0
    let s1 : exh_state :=
      if sum > s.sum_best then ⟨sum, sum, i, i⟩ else ⟨s.sum_best, sum, s.b, s.e⟩
    exh_outer input k (i + 1) (exh_inner input i (input.length - 1 - i) (i + 1) s1)

/-- The function `max_subarray_exh`. -/
def max_subarray_exh (input : List Int) : Outcome summed_span :=
  if input.isEmpty then Outcome.abort
  else if input.length = 1 then summed_span.mk2 input 0 input.length
  else
    let s := exh_outer input (input.length - 1) 0 ⟨-9999999, 0, 0, 1⟩
    if s.sum_best < input.getD (input.length - 1) 0 then
      summed_span.mk2 input (input.length - 1) input.length
    else summed_span.mk2 input s.b (s.e + 1)

/-! ## max_subarray_dbh -/

/-- The running `sum`, the best sum so far (`left_sum` or `right_sum`) and the index where
it was reached (`begin` or `end`) in a scan of `maximum_subarray_crossing`. -/
structure scan_state where
  sum : Int
  best : Int
  idx : Nat
deriving DecidableEq, Repr

/-- One iteration of either scan: `sum += input[i]; if (sum > best) { best = sum; idx = i; }`. -/
def scan_step (input : List Int) (i : Nat) (s : scan_state) : scan_state :=
  let sum := wrap (s.sum + input.getD i 0)
  if sum > s.best then ⟨sum, sum, i⟩ else ⟨sum, s.best, s.idx⟩

/-- The loop `for (int i = middle; i >= low; i--)`; the first argument counts the
iterations still to run, the second is `i`. -/
def scan_left (input : List Int) : Nat → Nat → scan_state → scan_state
  | 0, _, s => s
  | k + 1, i, s => scan_left input k (i - 1) (scan_step input i s)

/-- The loop `for (int i = middle + 1; i <= high; i++)`; the first argument counts the
iterations still to run, the second is `i`. -/
def scan_right (input : List Int) : Nat → Nat → scan_state → scan_state
  | 0, _, s => s
  | k + 1, i, s => scan_right input k (i + 1) (scan_step input i s)

/-- The function `maximum_subarray_crossing`. The running `sum` is carried over from the
leftward scan into the rightward scan, as in the source. -/
def maximum_subarray_crossing (input : List Int) (low middle high : Nat) :
    Outcome summed_span :=
  let l := scan_left input (middle + 1 - low) middle ⟨0, -9999999, 0⟩
  let r := scan_right input (high - middle) (middle + 1) ⟨l.sum, -9999999, 0⟩
  summed_span.mk2 input l.idx (r.idx + 1)

/-- The function `maximum_subarray_recurse`; the first argument bounds the depth of the
recursion, and a call that exceeds it is `hang`. -/
def maximum_subarray_recurse (input : List Int) : Nat → Nat → Nat → Outcome summed_span
  | 0, _, _ => Outcome.hang
  | fuel + 1, low, high =>
    if low = high then summed_span.mk2 input low (low + 1)
    else
      let middle := (low + high) / 2
      match maximum_subarray_recurse input fuel low middle with
      | Outcome.ret entirely_left =>
        match maximum_subarray_recurse input fuel (middle + 1) high with
        | Outcome.ret entirely_right =>
          match maximum_subarray_crossing input low middle high with
          | Outcome.ret crossing =>
            if entirely_right.sum_ > entirely_left.sum_ ∧ entirely_right.sum_ > crossing.sum_ then
              Outcome.ret entirely_right
            else if entirely_left.sum_ > entirely_right.sum_ ∧
                entirely_left.sum_ > crossing.sum_ then
              Outcome.ret entirely_left
            else Outcome.ret crossing
          | o => o
        | o => o
      | o => o

/-- The function `max_subarray_dbh`. A range of `high - low + 1` elements is split at most
that many times, so the depth bound `input.length` is never reached. -/
def max_subarray_dbh (input : List Int) : Outcome summed_span :=
  if input.isEmpty then Outcome.abort
  else maximum_subarray_recurse input input.length 0 (input.length - 1)

/-! ## subset_sum_exh -/

/-- The loop `for (int j = 0; j <= n-1; j++)` of `subset_sum_exh` for the mask `i`; the
first argument counts the iterations still to run, the second is `j`, the third is the
`candidate` built so far. The sum test runs after every bit, on the candidate as built up
to that bit. `some c` is `return candidate`, `none` is the loop running to its end. The
source shifts the 32-bit `int i` by `j`, which C++ leaves undefined for `j ≥ 32`; the shift
instruction takes the count modulo 32, and so does the model. For a negative `i` the shift
is the arithmetic one. -/
def subset_inner (input : List Int) (target : Int) (i : Int) :
    Nat → Nat → List Int → Option (List Int)
  | 0, _, _ => none
  | k + 1, j, candidate =>
    let candidate1 :=
      if Int.land (i >>> (j % 32)) 1 = 1 then candidate ++ [input.getD j 0] else candidate
    let sum_of_elems := accumulate candidate1
    if candidate1.length > 0 ∧ sum_of_elems = target then some candidate1
    else subset_inner input target i k (j + 1) candidate1

/-- The loop `for (int i = 0; i <= pow(2,n) - 1; i++)` of `subset_sum_exh`; the second
argument is `i`, an `int`, so `i++` is followed by `wrap`. The only state carried from one
iteration to the next is `i`, so a run that has not returned after `2^32` iterations is
back in a state it was in before and never returns: the first argument counts down from
`2^32`, and reaching zero is `hang`. -/
def subset_outer (input : List Int) (target : Int) : Nat → Int → Outcome (Option (List Int))
  | 0, _ => Outcome.hang
  | fuel + 1, i =>
    if i ≤ 2 ^ input.length - 1 then
      match subset_inner input target i input.length 0 [] with
      | some c => Outcome.ret (some c)
      | none => subset_outer input target fuel (wrap (i + 1))
    else Outcome.ret none

/-- The function `subset_sum_exh`. -/
def subset_sum_exh (input : List Int) (target : Int) : Outcome (Option (List Int)) :=
  if input.isEmpty then Outcome.abort
  else if ¬ input.length < 64 then Outcome.abort
  else subset_outer input target 4294967296 0

/-! ## Specification vocabulary -/

/-- The mathematical sum of the elements of `input` in `[b, e)`. -/
def span_sum (input : List Int) (b e : Nat) : Int := (slice input b e).sum

/-- The sum of the absolute values of the elements. -/
def abs_sum (input : List Int) : Int := (input.map fun x => |x|).sum

/-- The span `[b, e)` is a non-empty span of `input`. -/
def is_span (input : List Int) (b e : Nat) : Prop := b < e ∧ e ≤ input.length

/-- The span `r` lies in `input`, stores its true sum, and no non-empty span of `input`
has a larger sum. -/
def is_max_span (input : List Int) (r : summed_span) : Prop :=
  is_span input r.begin_ r.end_ ∧ r.sum_ = span_sum input r.begin_ r.end_ ∧
    ∀ b e, is_span input b e → span_sum input b e ≤ r.sum_

/-- The span `[b, e)` comes no later than `[b1, e1)` in the scan order of
`max_subarray_exh`: lower start first, then lower end. -/
def scan_le (b e b1 e1 : Nat) : Prop := b < b1 ∨ (b = b1 ∧ e ≤ e1)

/-- The span `r` is a maximum-sum span of `input` and comes first in scan order among the
spans with that sum. -/
def is_first_max_span (input : List Int) (r : summed_span) : Prop :=
  is_max_span input r ∧
    ∀ b e, is_span input b e → span_sum input b e = r.sum_ → scan_le r.begin_ r.end_ b e

/-- The span `[b, e)` is a non-empty span of the index range `low..high` (both included). -/
def in_range (low high b e : Nat) : Prop := low ≤ b ∧ b < e ∧ e ≤ high + 1

/-- The span `[b, e)` is the only span of the index range `low..high` with the largest sum:
every other span of the range has a strictly smaller sum. -/
def unique_max_in (input : List Int) (low high b e : Nat) : Prop :=
  in_range low high b e ∧
    ∀ b1 e1, in_range low high b1 e1 → (b1 ≠ b ∨ e1 ≠ e) →
      span_sum input b1 e1 < span_sum input b e

/-- The pair `(i1, e1)` (start index, last index) has been examined when the outer loop
of `max_subarray_exh` is at start index `i` and has examined the last indices below `J`. -/
def scanned (i J i1 e1 : Nat) : Prop := i1 < i ∨ (i1 = i ∧ e1 < J)

/-- The loop invariant of `max_subarray_exh`: `sum_best` bounds every examined span, the
recorded `(b, e)` is the first examined span with that sum, or nothing has beaten the
initial value yet. -/
structure exh_inv (input : List Int) (i J : Nat) (s : exh_state) : Prop where
  upper : ∀ i1 e1, i1 ≤ e1 → e1 < input.length → scanned i J i1 e1 →
    span_sum input i1 (e1 + 1) ≤ s.sum_best ∧
      (span_sum input i1 (e1 + 1) = s.sum_best → scan_le s.b s.e i1 e1)
  attained : s.sum_best = -9999999 ∨
    (s.b ≤ s.e ∧ s.e < input.length ∧ scanned i J s.b s.e ∧
      s.sum_best = span_sum input s.b (s.e + 1))

/-- The invariant of a scan of `maximum_subarray_crossing`: `val x` is the running sum
after index `x`, `proc` holds of the indices already visited, `before a b` says that `a`
is visited no later than `b`. The recorded best bounds every visited running sum and was
reached first at the recorded index, or nothing has beaten the initial value yet. -/
def scan_inv (val : Nat → Int) (proc : Nat → Prop) (before : Nat → Nat → Prop)
    (s : scan_state) : Prop :=
  (∀ x, proc x → val x ≤ s.best ∧ (val x = s.best → before s.idx x)) ∧
    (s.best = -9999999 ∨ (proc s.idx ∧ s.best = val s.idx))

/-- The `candidate` vector of `subset_sum_exh` for the counter value `i` after the indices
below `j` have been visited: the values `input[t]`, in increasing `t < j`, for which the
bit test of the source succeeds. -/
def selected (input : List Int) (i : Int) : Nat → List Int
  | 0 => []
  | j + 1 =>
    if Int.land (i >>> (j % 32)) 1 = 1 then selected input i j ++ [input.getD j 0]
    else selected input i j

/-- The subset the specification assigns to the bitmask `m`: the values `input[t]`, in
increasing `t < j`, for the bits `t` set in `m` (bit `t` selecting index `t`). -/
def mask_values (input : List Int) (m : Nat) : Nat → List Int
  | 0 => []
  | j + 1 =>
    if m.testBit j then mask_values input m j ++ [input.getD j 0]
    else mask_values input m j

/-- The value `i` fits a 32-bit `int`. -/
def is_int (i : Int) : Prop := -2147483648 ≤ i ∧ i < 2147483648

/-! ## Instrumentation of max_subarray_dbh -/

/-- The arguments `(low, middle, high)` of the calls of `maximum_subarray_crossing` that a
call of `maximum_subarray_recurse` makes, in call order. A call is made only when the
calls before it have returned. -/
def crossing_calls (input : List Int) : Nat → Nat → Nat → List (Nat × Nat × Nat)
  | 0, _, _ => []
  | fuel + 1, low, high =>
    if low = high then []
    else
      let middle := (low + high) / 2
      match maximum_subarray_recurse input fuel low middle with
      | Outcome.ret _ =>
        match maximum_subarray_recurse input fuel (middle + 1) high with
        | Outcome.ret _ =>
          crossing_calls input fuel low middle ++ crossing_calls input fuel (middle + 1) high ++
            [(low, middle, high)]
        | _ => crossing_calls input fuel low middle ++ crossing_calls input fuel (middle + 1) high
      | _ => crossing_calls input fuel low middle

/-- The work of one call of `maximum_subarray_crossing`: the iterations of the leftward
loop, the iterations of the rightward loop, and the additions `std::accumulate` performs
in the constructor call `summed_span(start_, end_)`, one for each element from `begin` up
to `end`. -/
def crossing_work (input : List Int) (low middle high : Nat) : Nat :=
  let l := scan_left input (middle + 1 - low) middle ⟨0, -9999999, 0⟩
  let r := scan_right input (high - middle) (middle + 1) ⟨l.sum, -9999999, 0⟩
  (middle + 1 - low) + (high - middle) + (r.idx + 1 - l.idx)

/-- The work of a call of `maximum_subarray_recurse`: one addition for the constructor
call of the base case, otherwise the work of the two recursive calls and of the call of
`maximum_subarray_crossing`, each counted when the call is made. -/
def recurse_work (input : List Int) : Nat → Nat → Nat → Nat
  | 0, _, _ => 0
  | fuel + 1, low, high =>
    if low = high then 1
    else
      let middle := (low + high) / 2
      match maximum_subarray_recurse input fuel low middle with
      | Outcome.ret _ =>
        match maximum_subarray_recurse input fuel (middle + 1) high with
        | Outcome.ret _ =>
          recurse_work input fuel low middle + recurse_work input fuel (middle + 1) high +
            crossing_work input low middle high
        | _ => recurse_work input fuel low middle + recurse_work input fuel (middle + 1) high
      | _ => recurse_work input fuel low middle

/-- The work of a call of `max_subarray_dbh` on a non-empty input. -/
def dbh_work (input : List Int) : Nat :=
  recurse_work input input.length 0 (input.length - 1)

/-- The value of the local variable `left_sum` of `maximum_subarray_crossing` when the
function returns. -/
def crossing_left_sum (input : List Int) (low middle : Nat) : Int :=
  (scan_left input (middle + 1 - low) middle ⟨0, -9999999, 0⟩).best

/-- The value of the local variable `right_sum` of `maximum_subarray_crossing` when the
function returns. -/
def crossing_right_sum (input : List Int) (low middle high : Nat) : Int :=
  (scan_right input (high - middle) (middle + 1)
    ⟨(scan_left input (middle + 1 - low) middle ⟨0, -9999999, 0⟩).sum, -9999999, 0⟩).best

/-- The input made of `k` copies of the pair `-10000000, 10000001`. -/
def sentinel_pairs : Nat → List Int
  | 0 => []
  | k + 1 => sentinel_pairs k ++ [-10000000, 10000001]

/-! ## Arithmetic in range -/

theorem wrap_of_range {x : Int} (h1 : -2147483648 ≤ x) (h2 : x < 2147483648) : wrap x = x := by
  unfold wrap
  omega

theorem abs_sum_nil : abs_sum [] = 0 := rfl

theorem abs_sum_cons (x : Int) (l : List Int) : abs_sum (x :: l) = |x| + abs_sum l := by
  simp [abs_sum]

theorem abs_sum_nonneg (l : List Int) : 0 ≤ abs_sum l := by
  induction l with
  | nil => simp [abs_sum]
  | cons x l ih =>
    rw [abs_sum_cons]
    have := abs_nonneg x
    omega

theorem abs_sum_sublist {l1 l2 : List Int} (h : l1.Sublist l2) : abs_sum l1 ≤ abs_sum l2 := by
  induction h with
  | slnil => exact le_refl _
  | cons x _ ih =>
    rw [abs_sum_cons]
    have := abs_nonneg x
    omega
  | cons₂ x _ ih =>
    rw [abs_sum_cons, abs_sum_cons]
    omega

theorem abs_list_sum_le (l : List Int) : |l.sum| ≤ abs_sum l := by
  induction l with
  | nil => simp [abs_sum]
  | cons x l ih =>
    rw [abs_sum_cons, List.sum_cons]
    have := abs_add x l.sum
    omega

theorem foldl_wrap_eq (l : List Int) (acc : Int) (h : |acc| + abs_sum l < 2147483648) :
    l.foldl (fun a x => wrap (a + x)) acc = acc + l.sum := by
  induction l generalizing acc with
  | nil => simp
  | cons x l ih =>
    rw [abs_sum_cons] at h
    have h0 := abs_sum_nonneg l
    have h1 := abs_add acc x
    have h2 := abs_nonneg x
    have hw : wrap (acc + x) = acc + x := by
      apply wrap_of_range
      · have := neg_abs_le (acc + x)
        omega
      · have := le_abs_self (acc + x)
        omega
    rw [List.foldl_cons, hw, ih (acc + x) (by omega), List.sum_cons]
    ring

theorem accumulate_eq_sum (l : List Int) (h : abs_sum l < 2147483648) :
    accumulate l = l.sum := by
  unfold accumulate
  rw [foldl_wrap_eq l 0 (by simpa using h)]
  simp

/-! ## Sums over index ranges -/

theorem slice_sublist (input : List Int) (b e : Nat) : (slice input b e).Sublist input :=
  (List.take_sublist _ _).trans (List.drop_sublist _ _)

theorem span_sum_abs_le (input : List Int) (b e : Nat) :
    |span_sum input b e| ≤ abs_sum input :=
  le_trans (abs_list_sum_le _) (abs_sum_sublist (slice_sublist input b e))

theorem span_sum_self (input : List Int) (b : Nat) : span_sum input b b = 0 := by
  simp [span_sum, slice]

theorem span_sum_succ_right (input : List Int) {b j : Nat} (h : b ≤ j) :
    span_sum input b (j + 1) = span_sum input b j + input.getD j 0 := by
  unfold span_sum slice
  have e1 : j + 1 - b = (j - b) + 1 := by omega
  rw [e1, List.take_succ, List.sum_append, List.getElem?_drop]
  have e2 : b + (j - b) = j := by omega
  rw [e2, List.getD_eq_getElem?_getD]
  cases input[j]? <;> simp

theorem span_sum_succ_left (input : List Int) {i e : Nat} (h : i < e) :
    span_sum input i e = input.getD i 0 + span_sum input (i + 1) e := by
  unfold span_sum slice
  have e1 : e - i = (e - (i + 1)) + 1 := by omega
  rw [e1]
  by_cases hi : i < input.length
  · rw [List.drop_eq_getElem_cons hi, List.take_succ_cons, List.sum_cons,
      List.getD_eq_getElem?_getD, List.getElem?_eq_getElem hi]
    simp
  · have h1 : input.drop i = [] := List.drop_eq_nil_of_le (by omega)
    have h2 : input.drop (i + 1) = [] := List.drop_eq_nil_of_le (by omega)
    rw [h1, h2, List.getD_eq_getElem?_getD, List.getElem?_eq_none (by omega)]
    simp

theorem span_sum_single (input : List Int) (i : Nat) :
    span_sum input i (i + 1) = input.getD i 0 := by
  rw [span_sum_succ_right input (le_refl i), span_sum_self]
  simp

/-! ## max_subarray_exh under the bound -/

theorem span_sum_gt_sentinel (input : List Int) (hB : abs_sum input < 9999999) (b e : Nat) :
    -9999999 < span_sum input b e := by
  have h := span_sum_abs_le input b e
  have := neg_abs_le (span_sum input b e)
  omega

theorem span_sum_lt_bound (input : List Int) (hB : abs_sum input < 9999999) (b e : Nat) :
    span_sum input b e < 9999999 := by
  have h := span_sum_abs_le input b e
  have := le_abs_self (span_sum input b e)
  omega

theorem exh_step (input : List Int) (hB : abs_sum input < 9999999) (i j : Nat) (hij : i ≤ j)
    (hj : j < input.length) (s : exh_state) (hinv : exh_inv input i j s) (v : Int)
    (hv : v = span_sum input i (j + 1)) :
    exh_inv input i (j + 1)
      (if v > s.sum_best then ⟨v, v, i, j⟩ else ⟨s.sum_best, v, s.b, s.e⟩) := by
  have hgt := span_sum_gt_sentinel input hB i (j + 1)
  by_cases hc : v > s.sum_best
  · rw [if_pos hc]
    refine ⟨?_, Or.inr ⟨hij, hj, Or.inr ⟨rfl, Nat.lt_succ_self j⟩, hv⟩⟩
    intro i1 e1 h1 h2 h3
    dsimp only
    rcases h3 with h3 | ⟨h3, h4⟩
    · have := (hinv.upper i1 e1 h1 h2 (Or.inl h3)).1
      exact ⟨by omega, fun h => by omega⟩
    · rcases Nat.lt_succ_iff_lt_or_eq.mp h4 with h4 | h4
      · have := (hinv.upper i1 e1 h1 h2 (Or.inr ⟨h3, h4⟩)).1
        exact ⟨by omega, fun h => by omega⟩
      · subst h3 h4
        exact ⟨by omega, fun _ => Or.inr ⟨rfl, le_refl _⟩⟩
  · rw [if_neg hc]
    constructor
    · intro i1 e1 h1 h2 h3
      dsimp only
      rcases h3 with h3 | ⟨h3, h4⟩
      · exact hinv.upper i1 e1 h1 h2 (Or.inl h3)
      · rcases Nat.lt_succ_iff_lt_or_eq.mp h4 with h4 | h4
        · exact hinv.upper i1 e1 h1 h2 (Or.inr ⟨h3, h4⟩)
        · subst h3 h4
          refine ⟨by omega, fun h => ?_⟩
          rcases hinv.attained with ha | ⟨_, _, ha, _⟩
          · omega
          · rcases ha with ha | ⟨ha, hb⟩
            · exact Or.inl ha
            · exact Or.inr ⟨ha, by omega⟩
    · rcases hinv.attained with ha | ⟨h1, h2, h3, h4⟩
      · exact Or.inl ha
      · refine Or.inr ⟨h1, h2, ?_, h4⟩
        show scanned i (j + 1) s.b s.e
        rcases h3 with h3 | ⟨h3, h5⟩
        · exact Or.inl h3
        · exact Or.inr ⟨h3, by omega⟩

theorem exh_inner_inv (input : List Int) (hB : abs_sum input < 9999999) (i : Nat) :
    ∀ (k j : Nat) (s : exh_state), i < j → j + k = input.length → exh_inv input i j s →
      s.sum = span_sum input i j →
      exh_inv input i input.length (exh_inner input i k j s) := by
  intro k
  induction k with
  | zero =>
    intro j s _ hjk hinv _
    have : j = input.length := by omega
    subst this
    exact hinv
  | succ k ih =>
    intro j s hij hjk hinv hsum
    have hv : wrap (s.sum + input.getD j 0) = span_sum input i (j + 1) := by
      rw [span_sum_succ_right input (le_of_lt hij), ← hsum]
      have h1 := span_sum_gt_sentinel input hB i (j + 1)
      have h2 := span_sum_lt_bound input hB i (j + 1)
      rw [span_sum_succ_right input (le_of_lt hij), ← hsum] at h1 h2
      exact wrap_of_range (by omega) (by omega)
    have hstep := exh_step input hB i j (le_of_lt hij) (by omega) s hinv
      (wrap (s.sum + input.getD j 0)) hv
    unfold exh_inner
    simp only
    by_cases hc : wrap (s.sum + input.getD j 0) > s.sum_best
    · rw [if_pos hc] at hstep ⊢
      exact ih (j + 1) _ (by omega) (by omega) hstep hv
    · rw [if_neg hc] at hstep ⊢
      exact ih (j + 1) _ (by omega) (by omega) hstep hv

theorem exh_outer_inv (input : List Int) (hB : abs_sum input < 9999999) :
    ∀ (k i : Nat) (s : exh_state), i + k + 1 = input.length → exh_inv input i i s →
      exh_inv input (input.length - 1) (input.length - 1) (exh_outer input k i s) := by
  intro k
  induction k with
  | zero =>
    intro i s hik hinv
    have : i = input.length - 1 := by omega
    subst this
    exact hinv
  | succ k ih =>
    intro i s hik hinv
    unfold exh_outer
    simp only
    have hstep := exh_step input hB i i (le_refl i) (by omega) s hinv _
      (span_sum_single input i).symm
    have hsum : (if input.getD i 0 > s.sum_best then
        (⟨input.getD i 0, input.getD i 0, i, i⟩ : exh_state)
        else ⟨s.sum_best, input.getD i 0, s.b, s.e⟩).sum = span_sum input i (i + 1) := by
      rw [span_sum_single]
      split <;> rfl
    have hin := exh_inner_inv input hB i (input.length - 1 - i) (i + 1) _ (by omega)
      (by omega) hstep hsum
    apply ih (i + 1) _ (by omega)
    constructor
    · intro i1 e1 h1 h2 h3
      apply hin.upper i1 e1 h1 h2
      rcases h3 with h3 | ⟨h3, h4⟩
      · rcases Nat.lt_succ_iff_lt_or_eq.mp h3 with h3 | h3
        · exact Or.inl h3
        · exact Or.inr ⟨h3, h2⟩
      · omega
    · rcases hin.attained with ha | ⟨h1, h2, h3, h4⟩
      · exact Or.inl ha
      · refine Or.inr ⟨h1, h2, ?_, h4⟩
        rcases h3 with h3 | ⟨h3, _⟩
        · exact Or.inl (by omega)
        · exact Or.inl (by omega)

theorem mk2_eq (input : List Int) (hB : abs_sum input < 9999999) {b e : Nat} (h : b < e) :
    summed_span.mk2 input b e = Outcome.ret ⟨b, e, span_sum input b e⟩ := by
  unfold summed_span.mk2
  rw [if_pos h, accumulate_eq_sum]
  · rfl
  · have := abs_sum_sublist (slice_sublist input b e)
    omega

theorem first_max_intro (input : List Int) (b e : Nat) (hs : is_span input b e)
    (key : ∀ b1 e1, is_span input b1 e1 →
      span_sum input b1 e1 ≤ span_sum input b e ∧
      (span_sum input b1 e1 = span_sum input b e → scan_le b e b1 e1)) :
    is_first_max_span input ⟨b, e, span_sum input b e⟩ :=
  ⟨⟨hs, rfl, fun b1 e1 h => (key b1 e1 h).1⟩, fun b1 e1 h => (key b1 e1 h).2⟩

theorem exh_init_inv (input : List Int) : exh_inv input 0 0 ⟨-9999999, 0, 0, 1⟩ := by
  refine ⟨?_, Or.inl rfl⟩
  intro i1 e1 _ _ h3
  rcases h3 with h3 | ⟨_, h4⟩
  · exact absurd h3 (Nat.not_lt_zero _)
  · exact absurd h4 (Nat.not_lt_zero _)

theorem max_subarray_exh_spec (input : List Int) (hne : input ≠ [])
    (hB : abs_sum input < 9999999) :
    ∃ r, max_subarray_exh input = Outcome.ret r ∧ is_first_max_span input r := by
  have hpos : 0 < input.length := List.length_pos.mpr hne
  have hemp : input.isEmpty = false := by
    cases input with
    | nil => exact absurd rfl hne
    | cons _ _ => rfl
  unfold max_subarray_exh
  rw [hemp]
  simp only [Bool.false_eq_true, if_false]
  by_cases h1 : input.length = 1
  · rw [if_pos h1, mk2_eq input hB (by omega)]
    refine ⟨_, rfl, first_max_intro input 0 input.length ⟨by omega, by omega⟩ ?_⟩
    intro b e ⟨hb, he⟩
    have hb0 : b = 0 := by omega
    have he1 : e = input.length := by omega
    subst hb0 he1
    exact ⟨le_refl _, fun _ => Or.inr ⟨rfl, le_refl _⟩⟩
  · rw [if_neg h1]
    have hinv := exh_outer_inv input hB (input.length - 1) 0 _ (by omega) (exh_init_inv input)
    generalize exh_outer input (input.length - 1) 0 ⟨-9999999, 0, 0, 1⟩ = s at hinv
    have hlast : input.getD (input.length - 1) 0 =
        span_sum input (input.length - 1) input.length := by
      have := span_sum_single input (input.length - 1)
      rw [show input.length - 1 + 1 = input.length by omega] at this
      exact this.symm
    have h00 := (hinv.upper 0 0 (le_refl 0) hpos (Or.inl (by omega))).1
    have hgt := span_sum_gt_sentinel input hB 0 (0 + 1)
    rcases hinv.attained with ha | ⟨hbe, hen, hsc, hbest⟩
    · omega
    by_cases hc : s.sum_best < input.getD (input.length - 1) 0
    · rw [if_pos hc, mk2_eq input hB (by omega)]
      have key : ∀ b e, is_span input b e →
          span_sum input b e ≤ span_sum input (input.length - 1) input.length ∧
          (span_sum input b e = span_sum input (input.length - 1) input.length →
            scan_le (input.length - 1) input.length b e) := by
        intro b e ⟨hb, he⟩
        by_cases hbl : b < input.length - 1
        · have := (hinv.upper b (e - 1) (by omega) (by omega) (Or.inl hbl)).1
          rw [show e - 1 + 1 = e by omega] at this
          exact ⟨by omega, fun h => by omega⟩
        · have hb0 : b = input.length - 1 := by omega
          have he1 : e = input.length := by omega
          subst hb0 he1
          exact ⟨le_refl _, fun _ => Or.inr ⟨rfl, le_refl _⟩⟩
      exact ⟨_, rfl, first_max_intro input _ _ ⟨by omega, le_refl _⟩ key⟩
    · rw [if_neg hc, mk2_eq input hB (by omega)]
      have key : ∀ b e, is_span input b e →
          span_sum input b e ≤ span_sum input s.b (s.e + 1) ∧
          (span_sum input b e = span_sum input s.b (s.e + 1) →
            scan_le s.b (s.e + 1) b e) := by
        intro b e ⟨hb, he⟩
        by_cases hbl : b < input.length - 1
        · have := hinv.upper b (e - 1) (by omega) (by omega) (Or.inl hbl)
          rw [show e - 1 + 1 = e by omega, hbest] at this
          refine ⟨this.1, fun h => ?_⟩
          rcases this.2 h with h5 | ⟨h5, h6⟩
          · exact Or.inl h5
          · exact Or.inr ⟨h5, by omega⟩
        · have hb0 : b = input.length - 1 := by omega
          have he1 : e = input.length := by omega
          subst hb0 he1
          refine ⟨by omega, fun _ => ?_⟩
          rcases hsc with h5 | ⟨h5, h6⟩
          · exact Or.inl h5
          · exact Or.inr ⟨h5, by omega⟩
      exact ⟨_, rfl, first_max_intro input _ _ ⟨by omega, by omega⟩ key⟩

/-! ## maximum_subarray_crossing under the bound -/

theorem span_sum_add (input : List Int) {a b c : Nat} (hab : a ≤ b) (hbc : b ≤ c) :
    span_sum input a c = span_sum input a b + span_sum input b c := by
  induction c, hbc using Nat.le_induction with
  | base => rw [span_sum_self, add_zero]
  | succ c hbc ih =>
    rw [span_sum_succ_right input (le_trans hab hbc), span_sum_succ_right input hbc, ih]
    ring

theorem scan_inv_congr {val : Nat → Int} {proc proc1 : Nat → Prop}
    {before : Nat → Nat → Prop} {s : scan_state} (h : ∀ y, proc1 y ↔ proc y)
    (hinv : scan_inv val proc before s) : scan_inv val proc1 before s := by
  refine ⟨fun x hx => hinv.1 x ((h x).mp hx), ?_⟩
  rcases hinv.2 with h2 | ⟨h2, h3⟩
  · exact Or.inl h2
  · exact Or.inr ⟨(h _).mpr h2, h3⟩

theorem scan_step_inv (input : List Int) (val : Nat → Int) (proc : Nat → Prop)
    (before : Nat → Nat → Prop) (x : Nat) (s : scan_state)
    (hinv : scan_inv val proc before s) (hsum : wrap (s.sum + input.getD x 0) = val x)
    (hgt : -9999999 < val x) (hbef : ∀ y, proc y → before y x) (hrefl : before x x) :
    scan_inv val (fun y => proc y ∨ y = x) before (scan_step input x s) ∧
      (scan_step input x s).sum = val x := by
  unfold scan_step
  dsimp only
  rw [hsum]
  by_cases hc : val x > s.best
  · rw [if_pos hc]
    refine ⟨⟨?_, Or.inr ⟨Or.inr rfl, rfl⟩⟩, rfl⟩
    intro y hy
    dsimp only
    rcases hy with hy | hy
    · have := (hinv.1 y hy).1
      exact ⟨by omega, fun h => by omega⟩
    · subst hy
      exact ⟨le_refl _, fun _ => hrefl⟩
  · rw [if_neg hc]
    refine ⟨⟨?_, ?_⟩, rfl⟩
    · intro y hy
      dsimp only
      rcases hy with hy | hy
      · exact hinv.1 y hy
      · subst hy
        refine ⟨by omega, fun h => ?_⟩
        rcases hinv.2 with h2 | ⟨h2, _⟩
        · omega
        · exact hbef _ h2
    · dsimp only
      rcases hinv.2 with h2 | ⟨h2, h3⟩
      · exact Or.inl h2
      · exact Or.inr ⟨Or.inl h2, h3⟩

theorem scan_left_inv (input : List Int) (hB : abs_sum input < 9999999) (low m : Nat) :
    ∀ (k p : Nat) (s : scan_state), p = low + k → p ≤ m + 1 →
      s.sum = span_sum input p (m + 1) →
      scan_inv (fun i => span_sum input i (m + 1)) (fun i => p ≤ i ∧ i ≤ m)
        (fun a b => b ≤ a) s →
      (scan_left input k (p - 1) s).sum = span_sum input low (m + 1) ∧
      scan_inv (fun i => span_sum input i (m + 1)) (fun i => low ≤ i ∧ i ≤ m)
        (fun a b => b ≤ a) (scan_left input k (p - 1) s) := by
  intro k
  induction k with
  | zero =>
    intro p s hp _ hsum hinv
    have : p = low := by omega
    subst this
    exact ⟨hsum, hinv⟩
  | succ k ih =>
    intro p s hp hpm hsum hinv
    unfold scan_left
    have hw : wrap (s.sum + input.getD (p - 1) 0) = span_sum input (p - 1) (m + 1) := by
      have e : span_sum input (p - 1) (m + 1) = s.sum + input.getD (p - 1) 0 := by
        rw [span_sum_succ_left input (show p - 1 < m + 1 by omega), hsum,
          show p - 1 + 1 = p by omega]
        ring
      have h1 := span_sum_gt_sentinel input hB (p - 1) (m + 1)
      have h2 := span_sum_lt_bound input hB (p - 1) (m + 1)
      rw [← e]
      exact wrap_of_range (by omega) (by omega)
    have hstep := scan_step_inv input (fun i => span_sum input i (m + 1))
      (fun i => p ≤ i ∧ i ≤ m) (fun a b => b ≤ a) (p - 1) s hinv hw
      (span_sum_gt_sentinel input hB _ _) (fun y hy => by dsimp only; omega) (le_refl _)
    refine ih (p - 1) _ (by omega) (by omega) hstep.2 (scan_inv_congr ?_ hstep.1)
    intro y
    dsimp only
    omega

theorem scan_right_inv (input : List Int) (hB : abs_sum input < 9999999) (low m high : Nat)
    (hlm : low ≤ m) :
    ∀ (k q : Nat) (s : scan_state), q + k = high + 1 → m + 1 ≤ q →
      s.sum = span_sum input low q →
      scan_inv (fun j => span_sum input low (j + 1)) (fun j => m + 1 ≤ j ∧ j < q)
        (fun a b => a ≤ b) s →
      scan_inv (fun j => span_sum input low (j + 1)) (fun j => m + 1 ≤ j ∧ j ≤ high)
        (fun a b => a ≤ b) (scan_right input k q s) := by
  intro k
  induction k with
  | zero =>
    intro q s hq _ _ hinv
    exact scan_inv_congr (fun y => by omega) hinv
  | succ k ih =>
    intro q s hq hmq hsum hinv
    unfold scan_right
    have hw : wrap (s.sum + input.getD q 0) = span_sum input low (q + 1) := by
      have e : span_sum input low (q + 1) = s.sum + input.getD q 0 := by
        rw [span_sum_succ_right input (show low ≤ q by omega), hsum]
      have h1 := span_sum_gt_sentinel input hB low (q + 1)
      have h2 := span_sum_lt_bound input hB low (q + 1)
      rw [← e]
      exact wrap_of_range (by omega) (by omega)
    have hstep := scan_step_inv input (fun j => span_sum input low (j + 1))
      (fun j => m + 1 ≤ j ∧ j < q) (fun a b => a ≤ b) q s hinv hw
      (span_sum_gt_sentinel input hB _ _) (fun y hy => by dsimp only; omega) (le_refl _)
    refine ih (q + 1) _ (by omega) (by omega) hstep.2 (scan_inv_congr ?_ hstep.1)
    intro y
    dsimp only
    omega

theorem scan_init_inv (val : Nat → Int) (proc : Nat → Prop) (before : Nat → Nat → Prop)
    (sum : Int) (hproc : ∀ y, ¬ proc y) : scan_inv val proc before ⟨sum, -9999999, 0⟩ :=
  ⟨fun x hx => absurd hx (hproc x), Or.inl rfl⟩

theorem crossing_spec (input : List Int) (hB : abs_sum input < 9999999) (low m high : Nat)
    (hlm : low ≤ m) (hmh : m < high) :
    ∃ bg en, maximum_subarray_crossing input low m high =
        Outcome.ret ⟨bg, en + 1, span_sum input bg (en + 1)⟩ ∧
      low ≤ bg ∧ bg ≤ m ∧ m + 1 ≤ en ∧ en ≤ high ∧
      (∀ i, low ≤ i → i ≤ m → span_sum input i (m + 1) ≤ span_sum input bg (m + 1) ∧
        (span_sum input i (m + 1) = span_sum input bg (m + 1) → i ≤ bg)) ∧
      (∀ j, m + 1 ≤ j → j ≤ high →
        span_sum input (m + 1) (j + 1) ≤ span_sum input (m + 1) (en + 1) ∧
        (span_sum input (m + 1) (j + 1) = span_sum input (m + 1) (en + 1) → en ≤ j)) := by
  unfold maximum_subarray_crossing
  dsimp only
  have hl := scan_left_inv input hB low m (m + 1 - low) (m + 1) ⟨0, -9999999, 0⟩ (by omega)
    (le_refl _) (span_sum_self input (m + 1)).symm
    (scan_init_inv _ _ _ 0 (fun y hy => by omega))
  rw [show m + 1 - 1 = m by omega] at hl
  generalize scan_left input (m + 1 - low) m ⟨0, -9999999, 0⟩ = l at hl
  obtain ⟨hlsum, hlinv⟩ := hl
  have hr := scan_right_inv input hB low m high hlm (high - m) (m + 1)
    ⟨l.sum, -9999999, 0⟩ (by omega) (le_refl _) hlsum
    (scan_init_inv _ _ _ l.sum (fun y hy => by omega))
  generalize scan_right input (high - m) (m + 1) ⟨l.sum, -9999999, 0⟩ = r at hr
  have hl1 := (hlinv.1 m ⟨hlm, le_refl _⟩).1
  have hl2 := span_sum_gt_sentinel input hB m (m + 1)
  have hr1 := (hr.1 high ⟨by omega, le_refl _⟩).1
  have hr2 := span_sum_gt_sentinel input hB low (high + 1)
  dsimp only at hl1 hr1
  rcases hlinv.2 with hx | ⟨⟨hl3, hl4⟩, hl5⟩
  · omega
  rcases hr.2 with hx | ⟨⟨hr3, hr4⟩, hr5⟩
  · omega
  dsimp only at hl5 hr5
  refine ⟨l.idx, r.idx, mk2_eq input hB (by omega), hl3, hl4, hr3, hr4, ?_, ?_⟩
  · intro i hi1 hi2
    have := hlinv.1 i ⟨hi1, hi2⟩
    dsimp only at this
    rw [hl5] at this
    exact this
  · intro j hj1 hj2
    have := hr.1 j ⟨hj1, hj2⟩
    dsimp only at this
    rw [hr5, span_sum_add input (show low ≤ m + 1 by omega) (show m + 1 ≤ j + 1 by omega),
      span_sum_add input (show low ≤ m + 1 by omega) (show m + 1 ≤ r.idx + 1 by omega)] at this
    exact ⟨by omega, fun h => this.2 (by omega)⟩

theorem crossing_max (input : List Int) (hB : abs_sum input < 9999999) (low m high : Nat)
    (hlm : low ≤ m) (hmh : m < high) :
    ∃ c, maximum_subarray_crossing input low m high = Outcome.ret c ∧
      low ≤ c.begin_ ∧ c.begin_ ≤ m ∧ m + 2 ≤ c.end_ ∧ c.end_ ≤ high + 1 ∧
      c.sum_ = span_sum input c.begin_ c.end_ ∧
      ∀ b e, low ≤ b → b ≤ m → m + 2 ≤ e → e ≤ high + 1 → span_sum input b e ≤ c.sum_ := by
  obtain ⟨bg, en, h1, h2, h3, h4, h5, h6, h7⟩ := crossing_spec input hB low m high hlm hmh
  refine ⟨_, h1, h2, h3, by dsimp only; omega, by dsimp only; omega, rfl, ?_⟩
  intro b e hb1 hb2 he1 he2
  dsimp only
  have e1 := span_sum_add input (show b ≤ m + 1 by omega) (show m + 1 ≤ e by omega)
  have e2 := span_sum_add input (show bg ≤ m + 1 by omega) (show m + 1 ≤ en + 1 by omega)
  have e3 := (h6 b hb1 hb2).1
  have e4 := (h7 (e - 1) (by omega) (by omega)).1
  rw [show e - 1 + 1 = e by omega] at e4
  omega

/-! ## maximum_subarray_recurse under the bound -/

theorem recurse_spec (input : List Int) (hB : abs_sum input < 9999999) :
    ∀ (fuel low high : Nat), low ≤ high → high - low < fuel →
      ∃ r, maximum_subarray_recurse input fuel low high = Outcome.ret r ∧
        in_range low high r.begin_ r.end_ ∧ r.sum_ = span_sum input r.begin_ r.end_ ∧
        ∀ b e, unique_max_in input low high b e → r.begin_ = b ∧ r.end_ = e := by
  intro fuel
  induction fuel with
  | zero => intro low high _ h; omega
  | succ fuel ih =>
    intro low high hlh hfuel
    unfold maximum_subarray_recurse
    by_cases heq : low = high
    · rw [if_pos heq, mk2_eq input hB (Nat.lt_succ_self low)]
      refine ⟨_, rfl, ⟨le_refl _, Nat.lt_succ_self _, by dsimp only; omega⟩, rfl, ?_⟩
      intro b e ⟨⟨h1, h2, h3⟩, _⟩
      dsimp only
      omega
    · rw [if_neg heq]
      dsimp only
      have hm1 : low ≤ (low + high) / 2 := by omega
      have hm2 : (low + high) / 2 < high := by omega
      generalize (low + high) / 2 = m at hm1 hm2
      obtain ⟨L, hL, ⟨hL1, hL2, hL3⟩, hLs, hLu⟩ := ih low m hm1 (by omega)
      obtain ⟨R, hR, ⟨hR1, hR2, hR3⟩, hRs, hRu⟩ := ih (m + 1) high (by omega) (by omega)
      obtain ⟨C, hC, hC1, hC2, hC3, hC4, hCs, hCu⟩ := crossing_max input hB low m high hm1 hm2
      rw [hL, hR, hC]
      dsimp only
      have key : ∀ b e, unique_max_in input low high b e →
          ((L.begin_ ≠ b ∨ L.end_ ≠ e) → L.sum_ < span_sum input b e) ∧
          ((R.begin_ ≠ b ∨ R.end_ ≠ e) → R.sum_ < span_sum input b e) ∧
          ((C.begin_ ≠ b ∨ C.end_ ≠ e) → C.sum_ < span_sum input b e) ∧
          (L.begin_ = b → L.end_ = e → L.sum_ = span_sum input b e) ∧
          (R.begin_ = b → R.end_ = e → R.sum_ = span_sum input b e) ∧
          (C.begin_ = b → C.end_ = e → C.sum_ = span_sum input b e) ∧
          (e ≤ m + 1 → L.begin_ = b ∧ L.end_ = e) ∧
          (m + 1 ≤ b → R.begin_ = b ∧ R.end_ = e) ∧
          (b ≤ m → m + 2 ≤ e → span_sum input b e ≤ C.sum_) ∧
          low ≤ b ∧ b < e ∧ e ≤ high + 1 := by
        intro b e ⟨⟨h1, h2, h3⟩, hu⟩
        refine ⟨?_, ?_, ?_, ?_, ?_, ?_, ?_, ?_, ?_, h1, h2, h3⟩
        · intro h
          rw [hLs]
          exact hu _ _ ⟨hL1, hL2, by omega⟩ h
        · intro h
          rw [hRs]
          exact hu _ _ ⟨by omega, hR2, hR3⟩ h
        · intro h
          rw [hCs]
          exact hu _ _ ⟨hC1, by omega, hC4⟩ h
        · intro h3 h4
          rw [hLs, h3, h4]
        · intro h3 h4
          rw [hRs, h3, h4]
        · intro h3 h4
          rw [hCs, h3, h4]
        · intro h
          exact hLu b e ⟨⟨h1, h2, h⟩, fun b1 e1 ⟨g1, g2, g3⟩ g =>
            hu b1 e1 ⟨g1, g2, by omega⟩ g⟩
        · intro h
          exact hRu b e ⟨⟨h, h2, h3⟩, fun b1 e1 ⟨g1, g2, g3⟩ g =>
            hu b1 e1 ⟨by omega, g2, g3⟩ g⟩
        · intro h4 h5
          exact hCu b e h1 h4 h5 h3
      by_cases c1 : R.sum_ > L.sum_ ∧ R.sum_ > C.sum_
      · rw [if_pos c1]
        refine ⟨_, rfl, ⟨by omega, hR2, hR3⟩, hRs, ?_⟩
        intro b e hu
        have := key b e hu
        omega
      · rw [if_neg c1]
        by_cases c2 : L.sum_ > R.sum_ ∧ L.sum_ > C.sum_
        · rw [if_pos c2]
          refine ⟨_, rfl, ⟨hL1, hL2, by omega⟩, hLs, ?_⟩
          intro b e hu
          have := key b e hu
          omega
        · rw [if_neg c2]
          refine ⟨_, rfl, ⟨hC1, by omega, hC4⟩, hCs, ?_⟩
          intro b e hu
          have := key b e hu
          omega

/-! ## Claims about the maximum-subarray algorithms -/

theorem isEmpty_of_ne_nil {input : List Int} (hne : input ≠ []) : input.isEmpty = false := by
  cases input with
  | nil => exact absurd rfl hne
  | cons _ _ => rfl

theorem max_subarray_dbh_spec (input : List Int) (hne : input ≠ [])
    (hB : abs_sum input < 9999999) :
    ∃ r, max_subarray_dbh input = Outcome.ret r ∧
      is_span input r.begin_ r.end_ ∧ r.sum_ = span_sum input r.begin_ r.end_ ∧
      ∀ b e, unique_max_in input 0 (input.length - 1) b e → r.begin_ = b ∧ r.end_ = e := by
  have hpos : 0 < input.length := List.length_pos.mpr hne
  unfold max_subarray_dbh
  rw [isEmpty_of_ne_nil hne]
  simp only [Bool.false_eq_true, if_false]
  obtain ⟨r, h1, ⟨_, h3, h4⟩, h5, h6⟩ :=
    recurse_spec input hB input.length 0 (input.length - 1) (Nat.zero_le _) (by omega)
  exact ⟨r, h1, ⟨h3, by omega⟩, h5, h6⟩

/-- C1 (code defect): on `[-1, -1]` the span returned by `max_subarray_exh` has sum `-1`
and the span returned by `max_subarray_dbh` has sum `-2`, so the two sums are not
identical. -/
theorem exh_dbh_sums_differ :
    max_subarray_exh [-1, -1] = Outcome.ret ⟨0, 1, -1⟩ ∧
      max_subarray_dbh [-1, -1] = Outcome.ret ⟨0, 2, -2⟩ := by
  decide

/-- C2 (code defect): on `[1, -5, 1]` `max_subarray_dbh` returns the whole input, with sum
`-3`, although the span `[0, 1)` of the input has the larger sum `1`. -/
theorem dbh_not_maximal :
    max_subarray_dbh [1, -5, 1] = Outcome.ret ⟨0, 3, -3⟩ ∧
      span_sum [1, -5, 1] 0 1 = 1 := by
  decide

/-- C3 (code defect): on `[-20000000, -10000000]` `max_subarray_exh` returns the whole
input, with sum `-30000000`, although the span `[1, 2)` of the input has the larger sum
`-10000000`: no span sum exceeds the initial `sum_best = -9999999`. -/
theorem exh_not_maximal_below_sentinel :
    max_subarray_exh [-20000000, -10000000] = Outcome.ret ⟨0, 2, -30000000⟩ ∧
      span_sum [-20000000, -10000000] 1 2 = -10000000 := by
  decide

/-- C4: for a non-empty input whose absolute values sum to less than 9999999,
`max_subarray_exh` returns a span of the input that stores its true sum, has the largest
sum of all non-empty spans, and among the spans with that sum has the lowest start index
and, among those, the lowest end index. -/
theorem exh_returns_first_max (input : List Int) (hne : input ≠ [])
    (hB : abs_sum input < 9999999) :
    ∃ r, max_subarray_exh input = Outcome.ret r ∧ is_first_max_span input r :=
  max_subarray_exh_spec input hne hB

theorem exh_returns_first_max_witness :
    ([2, -1, 2, -3, 3] : List Int) ≠ [] ∧ abs_sum [2, -1, 2, -3, 3] < 9999999 ∧
      ∃ r, max_subarray_exh [2, -1, 2, -3, 3] = Outcome.ret r ∧
        is_first_max_span [2, -1, 2, -3, 3] r :=
  ⟨by decide, by decide, exh_returns_first_max [2, -1, 2, -3, 3] (by decide) (by decide)⟩

/-- C5: for a non-empty input whose absolute values sum to less than 9999999 and in which
the span `[b, e)` is the only non-empty span with the largest sum, `max_subarray_exh` and
`max_subarray_dbh` both return exactly the span `[b, e)`. -/
theorem exh_dbh_agree_on_unique_max (input : List Int) (hne : input ≠ [])
    (hB : abs_sum input < 9999999) (b e : Nat) (hs : is_span input b e)
    (hu : ∀ b1 e1, is_span input b1 e1 → (b1 ≠ b ∨ e1 ≠ e) →
      span_sum input b1 e1 < span_sum input b e) :
    max_subarray_exh input = Outcome.ret ⟨b, e, span_sum input b e⟩ ∧
      max_subarray_dbh input = Outcome.ret ⟨b, e, span_sum input b e⟩ := by
  have hpos : 0 < input.length := List.length_pos.mpr hne
  constructor
  · obtain ⟨r, h1, ⟨hsp, hsum, hmax⟩, _⟩ := max_subarray_exh_spec input hne hB
    have h2 := hmax b e hs
    have hb : r.begin_ = b ∧ r.end_ = e := by
      by_contra hcon
      have h3 := hu r.begin_ r.end_ hsp (by omega)
      omega
    rw [h1]
    obtain ⟨rb, re, rs⟩ := r
    dsimp only at hb hsum
    obtain ⟨hb1, hb2⟩ := hb
    subst hb1 hb2
    rw [hsum]
  · obtain ⟨r, h1, _, hsum, huq⟩ := max_subarray_dbh_spec input hne hB
    have hb := huq b e ⟨⟨Nat.zero_le _, hs.1, by have := hs.2; omega⟩,
      fun b1 e1 ⟨_, g2, g3⟩ g => hu b1 e1 ⟨g2, by omega⟩ g⟩
    rw [h1]
    obtain ⟨rb, re, rs⟩ := r
    dsimp only at hb hsum
    obtain ⟨hb1, hb2⟩ := hb
    subst hb1 hb2
    rw [hsum]

theorem exh_dbh_agree_on_unique_max_witness :
    abs_sum [-2, 5, -1] < 9999999 ∧ is_span [-2, 5, -1] 1 2 ∧
      max_subarray_exh [-2, 5, -1] = Outcome.ret ⟨1, 2, span_sum [-2, 5, -1] 1 2⟩ ∧
      max_subarray_dbh [-2, 5, -1] = Outcome.ret ⟨1, 2, span_sum [-2, 5, -1] 1 2⟩ :=
  ⟨by decide, ⟨by decide, by decide⟩,
    exh_dbh_agree_on_unique_max [-2, 5, -1] (by decide) (by decide) 1 2
      ⟨by decide, by decide⟩
      (by
        intro b1 e1 ⟨h1, h2⟩ h
        have h3 : e1 ≤ 3 := h2
        interval_cases e1 <;> interval_cases b1 <;> first | omega | decide)⟩

/-- C9 (code defect): on the all-negative input `[-2, -2]` `max_subarray_dbh` returns the
span `[0, 2)` of length 2 with sum `-4`, not a span of length 1 holding the largest
element `-2`. -/
theorem dbh_all_negative_length_two :
    max_subarray_dbh [-2, -2] = Outcome.ret ⟨0, 2, -4⟩ := by
  decide

/-- C10: for a single-element input `[x]`, with `x` an `int`, both `max_subarray_exh` and
`max_subarray_dbh` return the span with start 0, end 1 and sum `x`. -/
theorem single_element_span (x : Int) (h1 : -2147483648 ≤ x) (h2 : x < 2147483648) :
    max_subarray_exh [x] = Outcome.ret ⟨0, 1, x⟩ ∧
      max_subarray_dbh [x] = Outcome.ret ⟨0, 1, x⟩ := by
  have hw : wrap x = x := wrap_of_range h1 h2
  constructor
  · simp [max_subarray_exh, summed_span.mk2, accumulate, slice, hw]
  · simp [max_subarray_dbh, maximum_subarray_recurse, summed_span.mk2, accumulate, slice, hw]

theorem single_element_span_witness :
    (-2147483648 : Int) ≤ 5 ∧ (5 : Int) < 2147483648 ∧
      max_subarray_exh [5] = Outcome.ret ⟨0, 1, 5⟩ ∧
      max_subarray_dbh [5] = Outcome.ret ⟨0, 1, 5⟩ :=
  ⟨by decide, by decide, single_element_span 5 (by decide) (by decide)⟩

/-! ## subset_sum_exh -/

theorem wrap_is_int (x : Int) : is_int (wrap x) := by
  unfold is_int wrap
  omega

theorem selected_sublist (input : List Int) (i : Int) :
    ∀ j, j ≤ input.length → (selected input i j).Sublist (input.take j) := by
  intro j
  induction j with
  | zero => intro _; exact List.Sublist.refl _
  | succ j ih =>
    intro hj
    have hlt : j < input.length := by omega
    have htake : input.take (j + 1) = input.take j ++ [input.getD j 0] := by
      rw [List.take_succ, List.getD_eq_getElem?_getD, List.getElem?_eq_getElem hlt]
      rfl
    unfold selected
    rw [htake]
    split
    · exact List.Sublist.append (ih (by omega)) (List.Sublist.refl _)
    · exact (ih (by omega)).trans (List.sublist_append_left _ _)

theorem selected_sublist_input (input : List Int) (i : Int) (j : Nat)
    (hj : j ≤ input.length) : (selected input i j).Sublist input :=
  (selected_sublist input i j hj).trans (List.take_sublist _ _)

theorem subset_inner_some (input : List Int) (target i : Int) :
    ∀ (k j : Nat) (c : List Int),
      subset_inner input target i k j (selected input i j) = some c →
      ∃ j1, j < j1 ∧ j1 ≤ j + k ∧ c = selected input i j1 ∧ 0 < c.length ∧
        accumulate c = target := by
  intro k
  induction k with
  | zero => intro j c h; simp [subset_inner] at h
  | succ k ih =>
    intro j c h
    unfold subset_inner at h
    change (if 0 < (selected input i (j + 1)).length ∧
        accumulate (selected input i (j + 1)) = target then some (selected input i (j + 1))
      else subset_inner input target i k (j + 1) (selected input i (j + 1))) = some c at h
    by_cases hc : 0 < (selected input i (j + 1)).length ∧
        accumulate (selected input i (j + 1)) = target
    · rw [if_pos hc] at h
      have hcs : selected input i (j + 1) = c := Option.some.inj h
      subst hcs
      exact ⟨j + 1, by omega, by omega, rfl, hc.1, hc.2⟩
    · rw [if_neg hc] at h
      obtain ⟨j1, h1, h2, h3⟩ := ih (j + 1) c h
      exact ⟨j1, by omega, by omega, h3⟩

theorem subset_inner_none (input : List Int) (target i : Int) :
    ∀ (k j : Nat), subset_inner input target i k j (selected input i j) = none →
      ∀ j1, j < j1 → j1 ≤ j + k →
        ¬ (0 < (selected input i j1).length ∧ accumulate (selected input i j1) = target) := by
  intro k
  induction k with
  | zero => intro j _ j1 h1 h2; omega
  | succ k ih =>
    intro j h j1 h1 h2
    unfold subset_inner at h
    change (if 0 < (selected input i (j + 1)).length ∧
        accumulate (selected input i (j + 1)) = target then some (selected input i (j + 1))
      else subset_inner input target i k (j + 1) (selected input i (j + 1))) = none at h
    by_cases hc : 0 < (selected input i (j + 1)).length ∧
        accumulate (selected input i (j + 1)) = target
    · rw [if_pos hc] at h
      exact absurd h (Option.some_ne_none _)
    · rw [if_neg hc] at h
      by_cases hj : j1 = j + 1
      · subst hj
        exact hc
      · exact ih (j + 1) h j1 (by omega) (by omega)

theorem subset_outer_some (input : List Int) (target : Int) :
    ∀ (fuel : Nat) (i : Int) (c : List Int), is_int i →
      subset_outer input target fuel i = Outcome.ret (some c) →
      ∃ i1 j1, is_int i1 ∧ 0 < j1 ∧ j1 ≤ input.length ∧ c = selected input i1 j1 ∧
        0 < c.length ∧ accumulate c = target := by
  intro fuel
  induction fuel with
  | zero => intro i c _ h; simp [subset_outer] at h
  | succ fuel ih =>
    intro i c hi h
    unfold subset_outer at h
    by_cases hg : i ≤ 2 ^ input.length - 1
    · rw [if_pos hg] at h
      cases hin : subset_inner input target i input.length 0 [] with
      | some c1 =>
        rw [hin] at h
        have hcc : c1 = c := by
          injection h with h
          exact Option.some.inj h
        subst hcc
        obtain ⟨j1, h1, h2, h3⟩ := subset_inner_some input target i input.length 0 c1 hin
        exact ⟨i, j1, hi, h1, by omega, h3⟩
      | none =>
        rw [hin] at h
        exact ih (wrap (i + 1)) c (wrap_is_int _) h
    · rw [if_neg hg] at h
      injection h with h
      exact absurd h (by simp)

theorem subset_outer_ne_abort (input : List Int) (target : Int) :
    ∀ (fuel : Nat) (i : Int), subset_outer input target fuel i ≠ Outcome.abort := by
  intro fuel
  induction fuel with
  | zero => intro i h; simp [subset_outer] at h
  | succ fuel ih =>
    intro i h
    unfold subset_outer at h
    split at h
    · split at h
      · exact Outcome.noConfusion h
      · exact ih _ h
    · exact Outcome.noConfusion h

theorem subset_outer_ne_none (input : List Int) (target : Int) (hn : 31 ≤ input.length) :
    ∀ (fuel : Nat) (i : Int), is_int i →
      subset_outer input target fuel i ≠ Outcome.ret none := by
  have hpow : (2147483648 : Int) ≤ 2 ^ input.length := by
    have : (2 : Int) ^ 31 ≤ 2 ^ input.length := pow_le_pow_right₀ (by norm_num) hn
    norm_num at this
    exact this
  intro fuel
  induction fuel with
  | zero => intro i _ h; simp [subset_outer] at h
  | succ fuel ih =>
    intro i hi h
    unfold subset_outer at h
    have hg : i ≤ 2 ^ input.length - 1 := by
      have := hi.2
      omega
    rw [if_pos hg] at h
    split at h
    · injection h with h
      exact absurd h (by simp)
    · exact ih _ (wrap_is_int _) h

theorem selected_succ (input : List Int) (i : Int) (j : Nat) :
    selected input i (j + 1) =
      if Int.land (i >>> (j % 32)) 1 = 1 then selected input i j ++ [input.getD j 0]
      else selected input i j := rfl

theorem accumulate_of_sublist {input c : List Int} (hs : c.Sublist input)
    (hB : abs_sum input < 2147483648) : accumulate c = c.sum :=
  accumulate_eq_sum c (lt_of_le_of_lt (abs_sum_sublist hs) hB)

theorem sum_le_abs_sum_of_sublist {l1 l2 : List Int} (hs : l1.Sublist l2) :
    l1.sum ≤ abs_sum l2 :=
  le_trans (le_abs_self _) (le_trans (abs_list_sum_le l1) (abs_sum_sublist hs))

theorem subset_sum_exh_eq_outer (input : List Int) (target : Int) (h1 : input ≠ [])
    (h2 : input.length < 64) :
    subset_sum_exh input target = subset_outer input target 4294967296 0 := by
  unfold subset_sum_exh
  rw [isEmpty_of_ne_nil h1]
  simp only [Bool.false_eq_true, if_false]
  rw [if_neg (not_not.mpr h2)]

theorem zero_is_int : is_int 0 := by
  unfold is_int
  omega

theorem subset_sum_exh_some (input : List Int) (target : Int) (c : List Int)
    (h : subset_sum_exh input target = Outcome.ret (some c)) :
    ∃ i1 j1, is_int i1 ∧ 0 < j1 ∧ j1 ≤ input.length ∧ c = selected input i1 j1 ∧
      0 < c.length ∧ accumulate c = target := by
  unfold subset_sum_exh at h
  split at h
  · exact Outcome.noConfusion h
  · split at h
    · exact Outcome.noConfusion h
    · exact subset_outer_some input target _ 0 c zero_is_int h

/-- C6 (as stated, refuted): on `[2147483647, 1]` with target `-2147483648`
`subset_sum_exh` returns the subset `[2147483647, 1]`, whose values sum to `2147483648`
and not to the target: the `int` sum computed by `std::accumulate` wraps around to the
target. -/
theorem subset_sum_exh_wrapped_sum_counter :
    subset_sum_exh [2147483647, 1] (-2147483648) = Outcome.ret (some [2147483647, 1]) ∧
      ([2147483647, 1] : List Int).sum = 2147483648 ∧
      ([2147483647, 1] : List Int).sum ≠ -2147483648 := by
  decide

/-- C6 (amended): whenever `subset_sum_exh` returns a subset, the subset is non-empty
(whatever the target), it consists of the values at some distinct indices of the input in
index order, and its `int` sum, as `std::accumulate` computes it, is the target; the sum
is the mathematical sum of its values when the absolute values of the input sum to less
than `2^31`, so that no `int` addition overflows. An input on which the function returns
has length 1..63. -/
theorem subset_sum_exh_sound (input : List Int) (target : Int) (c : List Int)
    (h : subset_sum_exh input target = Outcome.ret (some c)) :
    c ≠ [] ∧ c.Sublist input ∧ accumulate c = target ∧
      (abs_sum input < 2147483648 → c.sum = target) := by
  obtain ⟨i1, j1, _, _, h3, h4, h5, h6⟩ := subset_sum_exh_some input target c h
  have hsub : c.Sublist input := h4 ▸ selected_sublist_input input i1 j1 h3
  refine ⟨List.ne_nil_of_length_pos h5, hsub, h6, fun hB => ?_⟩
  rw [← accumulate_of_sublist hsub hB]
  exact h6

theorem subset_sum_exh_sound_witness :
    subset_sum_exh [3, 7, 1, 8, 2] 10 = Outcome.ret (some [3, 7]) ∧
      ([3, 7] : List Int) ≠ [] ∧ List.Sublist [3, 7] ([3, 7, 1, 8, 2] : List Int) ∧
      accumulate [3, 7] = 10 ∧
      (abs_sum [3, 7, 1, 8, 2] < 2147483648 → ([3, 7] : List Int).sum = 10) :=
  ⟨by decide, subset_sum_exh_sound [3, 7, 1, 8, 2] 10 [3, 7] (by decide)⟩

/-- C7 (code defect): on the 31-element input `[1, ..., 1]` with the unreachable target
100 `subset_sum_exh` never returns the absent value. The loop test
`i <= pow(2, 31) - 1` holds for every value of the `int` counter `i`, and no candidate
sums to 100, so the loop is never left. On `[3, 7, 1, 8, 2]` with target 0 the absent
value is returned. -/
theorem subset_sum_exh_never_absent_31 :
    subset_sum_exh (List.replicate 31 1) 100 = Outcome.hang ∧
      subset_sum_exh [3, 7, 1, 8, 2] 0 = Outcome.ret none := by
  refine ⟨?_, by decide⟩
  have hne : (List.replicate 31 (1 : Int)) ≠ [] := by decide
  have hlen : (List.replicate 31 (1 : Int)).length = 31 := List.length_replicate _ _
  have habs : abs_sum (List.replicate 31 1) = 31 := by decide
  rw [subset_sum_exh_eq_outer _ _ hne (by omega)]
  cases h : subset_outer (List.replicate 31 1) 100 4294967296 0 with
  | ret o =>
    cases o with
    | none =>
      exact absurd h (subset_outer_ne_none _ _ (by omega) _ 0 zero_is_int)
    | some c =>
      exfalso
      obtain ⟨i1, j1, _, _, h3, h4, _, h6⟩ := subset_outer_some _ _ _ 0 c zero_is_int h
      have hsub : c.Sublist (List.replicate 31 1) := h4 ▸ selected_sublist_input _ i1 j1 h3
      have h7 := accumulate_of_sublist hsub (by omega)
      have h8 := sum_le_abs_sum_of_sublist hsub
      omega
  | abort => exact absurd h (subset_outer_ne_abort _ _ _ _)
  | hang => rfl

theorem shift_32_eq_shift_31 (i : Int) (hi : is_int i) :
    i >>> (32 : Nat) = i >>> (31 : Nat) := by
  rw [Int.shiftRight_eq_div_pow, Int.shiftRight_eq_div_pow]
  obtain ⟨h1, h2⟩ := hi
  norm_num
  omega

theorem selected_sum_nonneg (input : List Int) (hpos : ∀ x ∈ input, 0 ≤ x) (i : Int) (j : Nat)
    (hj : j ≤ input.length) : 0 ≤ (selected input i j).sum :=
  List.sum_nonneg fun x hx => hpos x ((selected_sublist_input input i j hj).subset hx)

theorem getD_nonneg (input : List Int) (hpos : ∀ x ∈ input, 0 ≤ x) (j : Nat) :
    0 ≤ input.getD j 0 := by
  by_cases hj : j < input.length
  · rw [List.getD_eq_getElem?_getD, List.getElem?_eq_getElem hj]
    exact hpos _ (List.getElem_mem hj)
  · rw [List.getD_eq_getElem?_getD, List.getElem?_eq_none (by omega)]
    exact le_refl _

theorem selected_sum_mono (input : List Int) (hpos : ∀ x ∈ input, 0 ≤ x) (i : Int)
    {a b : Nat} (hab : a ≤ b) : (selected input i a).sum ≤ (selected input i b).sum := by
  induction b, hab using Nat.le_induction with
  | base => exact le_refl _
  | succ b _ ih =>
    rw [selected_succ]
    split
    · rw [List.sum_append, List.sum_singleton]
      have := getD_nonneg input hpos b
      omega
    · exact ih

theorem selected_33_sum_ne (input : List Int) (hlen : input.length = 33)
    (htake : input.take 32 = List.replicate 32 1) (h0 : input.getD 0 0 = 1)
    (h32 : input.getD 32 0 = 100) (hpos : ∀ x ∈ input, 0 ≤ x)
    (i : Int) (j : Nat) (hj : j ≤ 33) :
    (selected input i j).sum ≠ 100 := by
  have hlow : ∀ t, t ≤ 32 → (selected input i t).sum ≤ 32 := by
    intro t ht
    have h1 := selected_sublist input i t (by omega)
    have h2 : (input.take t).Sublist (List.replicate 32 1) := by
      rw [← htake]
      exact List.take_sublist_take_left _ ht
    have h4 := sum_le_abs_sum_of_sublist (h1.trans h2)
    have h5 : abs_sum (List.replicate 32 1) = 32 := by decide
    omega
  by_cases hj32 : j ≤ 32
  · have := hlow j hj32
    omega
  · have hj33 : j = 32 + 1 := by omega
    subst hj33
    rw [selected_succ]
    split
    · rename_i hbit
      have hbit0 : Int.land (i >>> ((0 : Nat) % 32)) 1 = 1 := hbit
      have h1 : selected input i (0 + 1) = [1] := by
        rw [selected_succ, if_pos hbit0, h0]
        rfl
      have h2 := selected_sum_mono input hpos i (show 0 + 1 ≤ 32 by omega)
      rw [h1] at h2
      rw [h32]
      simp only [List.sum_append, List.sum_cons, List.sum_nil] at h2 ⊢
      omega
    · have := hlow 32 (le_refl _)
      omega

/-- C8 (code defect): on the 33-element input `[1, ..., 1, 100]` (32 ones, then 100) with
target 100 the mask `2^32`, which selects exactly index 32, is the only mask whose values
sum to the target, and its values are `[100]`; `subset_sum_exh` never returns. The counter
`i` is an `int`: the bit test for index 32 reads bit 0 again, so index 32 is never selected
without index 0, and the loop test `i <= pow(2, 33) - 1` holds for every value of `i`. On
`[3, 7, 1, 8, 2]` with target 10 the result is `[3, 7]`. -/
theorem subset_sum_exh_misses_mask_33 :
    mask_values (List.replicate 32 1 ++ [100]) 4294967296 33 = [100] ∧
      subset_sum_exh [3, 7, 1, 8, 2] 10 = Outcome.ret (some [3, 7]) ∧
      subset_sum_exh (List.replicate 32 1 ++ [100]) 100 = Outcome.hang := by
  have hne : (List.replicate 32 (1 : Int) ++ [100]) ≠ [] := by decide
  have hlen : (List.replicate 32 (1 : Int) ++ [100]).length = 33 := by decide
  have habs : abs_sum (List.replicate 32 1 ++ [100]) = 132 := by decide
  refine ⟨by decide, by decide, ?_⟩
  rw [subset_sum_exh_eq_outer _ _ hne (by omega)]
  cases h : subset_outer (List.replicate 32 1 ++ [100]) 100 4294967296 0 with
  | ret o =>
    cases o with
    | none =>
      exact absurd h (subset_outer_ne_none _ _ (by omega) _ 0 zero_is_int)
    | some c =>
      exfalso
      obtain ⟨i1, j1, h1, _, h3, h4, _, h6⟩ := subset_outer_some _ _ _ 0 c zero_is_int h
      have hsub : c.Sublist (List.replicate 32 1 ++ [100]) :=
        h4 ▸ selected_sublist_input _ i1 j1 h3
      have h7 := accumulate_of_sublist hsub (by omega)
      have hpos : ∀ x ∈ List.replicate 32 (1 : Int) ++ [100], 0 ≤ x := by
        intro x hx
        rcases List.mem_append.mp hx with hx | hx
        · rw [(List.mem_replicate.mp hx).2]
          decide
        · rw [List.mem_singleton.mp hx]
          decide
      have h8 := selected_33_sum_ne _ hlen (by decide) (by decide) (by decide) hpos
        i1 j1 (by omega)
      rw [← h4] at h8
      omega
  | abort => exact absurd h (subset_outer_ne_abort _ _ _ _)
  | hang => rfl

/-! ## subset_sum_exh on the masks the counter can hold -/

theorem bit_test_nat (k t : Nat) :
    Int.land ((k : Int) >>> t) 1 = 1 ↔ (k / 2 ^ t) % 2 = 1 := by
  have h : Int.land ((k : Int) >>> t) 1 = (((k >>> t) &&& 1 : Nat) : Int) := rfl
  rw [h, Nat.and_one_is_mod, Nat.shiftRight_eq_div_pow]
  omega

theorem nat_bit_mod (k j t : Nat) :
    ((k % 2 ^ j) / 2 ^ t) % 2 = 1 ↔ t < j ∧ (k / 2 ^ t) % 2 = 1 := by
  have h := Nat.testBit_mod_two_pow k j t
  rw [Nat.testBit_to_div_mod, Nat.testBit_to_div_mod] at h
  rw [← decide_eq_true_iff (p := k % 2 ^ j / 2 ^ t % 2 = 1), h]
  simp

theorem selected_congr (input : List Int) (a b : Int) :
    ∀ j : Nat,
      (∀ t : Nat, t < j →
        (Int.land (a >>> (t % 32)) 1 = 1 ↔ Int.land (b >>> (t % 32)) 1 = 1)) →
      selected input a j = selected input b j := by
  intro j
  induction j with
  | zero => intro _; rfl
  | succ j ih =>
    intro h
    rw [selected_succ, selected_succ, ih (fun t ht => h t (by omega))]
    by_cases hb : Int.land (a >>> (j % 32)) 1 = 1
    · rw [if_pos hb, if_pos ((h j (Nat.lt_succ_self j)).mp hb)]
    · rw [if_neg hb, if_neg (fun hb1 => hb ((h j (Nat.lt_succ_self j)).mpr hb1))]

theorem selected_no_bit (input : List Int) (a : Int) (j n : Nat) (hjn : j ≤ n)
    (h : ∀ t, j ≤ t → t < n → ¬ Int.land (a >>> (t % 32)) 1 = 1) :
    selected input a n = selected input a j := by
  induction n, hjn using Nat.le_induction with
  | base => rfl
  | succ n hjn ih =>
    rw [selected_succ, if_neg (h n hjn (Nat.lt_succ_self n))]
    exact ih (fun t h1 h2 => h t h1 (by omega))

theorem selected_mod (input : List Int) (k j n : Nat) (hjn : j ≤ n) (hn : n ≤ 32) :
    selected input ((k % 2 ^ j : Nat) : Int) n = selected input (k : Int) j := by
  rw [selected_no_bit input _ j n hjn]
  · apply selected_congr
    intro t ht
    rw [Nat.mod_eq_of_lt (show t < 32 by omega), bit_test_nat, bit_test_nat, nat_bit_mod]
    exact ⟨fun h => h.2, fun h => ⟨ht, h⟩⟩
  · intro t h1 h2
    rw [Nat.mod_eq_of_lt (show t < 32 by omega), bit_test_nat, nat_bit_mod]
    omega

theorem selected_zero (input : List Int) (n : Nat) : selected input ((0 : Nat) : Int) n = [] := by
  rw [selected_no_bit input _ 0 n (Nat.zero_le n)]
  · rfl
  · intro t _ _
    rw [bit_test_nat, Nat.zero_div]
    omega

theorem selected_length_pos (input : List Int) (m : Nat) (h1 : 1 ≤ m) :
    ∀ j, j ≤ 32 → m < 2 ^ j → 0 < (selected input (m : Int) j).length := by
  intro j
  induction j with
  | zero => intro _ h; simp at h; omega
  | succ j ih =>
    intro hj h
    rw [selected_succ]
    by_cases hb : Int.land ((m : Int) >>> (j % 32)) 1 = 1
    · rw [if_pos hb, List.length_append]
      simp
    · rw [if_neg hb]
      apply ih (by omega)
      rw [Nat.mod_eq_of_lt (show j < 32 by omega), bit_test_nat] at hb
      have h3 : m / 2 ^ j < 2 := Nat.div_lt_of_lt_mul (by rw [← pow_succ]; exact h)
      have h4 : m / 2 ^ j = 0 := by
        generalize m / 2 ^ j = x at hb h3
        omega
      exact (Nat.div_eq_zero_iff (Nat.pos_pow_of_pos _ (by norm_num))).mp h4

theorem pow_two_cast (n : Nat) : ((2 ^ n : Nat) : Int) = (2 : Int) ^ n := by
  push_cast
  rfl

theorem subset_outer_first (input : List Int) (target : Int) (c : List Int) (m0 : Nat)
    (hm0 : m0 < 2147483648) (hmn : m0 < 2 ^ input.length)
    (hhit : subset_inner input target (m0 : Int) input.length 0 [] = some c) :
    ∀ (fuel i : Nat), i ≤ m0 → m0 - i < fuel →
      (∀ m, i ≤ m → m < m0 → subset_inner input target (m : Int) input.length 0 [] = none) →
      subset_outer input target fuel (i : Int) = Outcome.ret (some c) := by
  intro fuel
  induction fuel with
  | zero => intro i _ h; omega
  | succ fuel ih =>
    intro i him hfuel hnone
    unfold subset_outer
    have hg : (i : Int) ≤ 2 ^ input.length - 1 := by
      rw [← pow_two_cast]
      omega
    rw [if_pos hg]
    by_cases heq : i = m0
    · subst heq
      rw [hhit]
    · rw [hnone i (le_refl i) (by omega)]
      dsimp only
      have hw : wrap ((i : Int) + 1) = ((i + 1 : Nat) : Int) := by
        rw [wrap_of_range (by omega) (by omega)]
        push_cast
        rfl
      rw [hw]
      exact ih (i + 1) (by omega) (by omega) (fun m h1 h2 => hnone m (by omega) h2)

theorem subset_outer_none (input : List Int) (target : Int) (hn : input.length ≤ 30) :
    ∀ (fuel i : Nat), i ≤ 2 ^ input.length → 2 ^ input.length - i < fuel →
      (∀ m, i ≤ m → m < 2 ^ input.length →
        subset_inner input target (m : Int) input.length 0 [] = none) →
      subset_outer input target fuel (i : Int) = Outcome.ret none := by
  have hpow : 2 ^ input.length ≤ 2 ^ 30 := Nat.pow_le_pow_right (by norm_num) hn
  intro fuel
  induction fuel with
  | zero => intro i _ h; omega
  | succ fuel ih =>
    intro i hi hfuel hnone
    unfold subset_outer
    by_cases heq : i = 2 ^ input.length
    · have hg : ¬ (i : Int) ≤ 2 ^ input.length - 1 := by
        rw [← pow_two_cast]
        omega
      rw [if_neg hg]
    · have hg : (i : Int) ≤ 2 ^ input.length - 1 := by
        rw [← pow_two_cast]
        omega
      rw [if_pos hg, hnone i (le_refl i) (by omega)]
      dsimp only
      have hw : wrap ((i : Int) + 1) = ((i + 1 : Nat) : Int) := by
        rw [wrap_of_range (by omega) (by omega)]
        push_cast
        rfl
      rw [hw]
      exact ih (i + 1) (by omega) (by omega) (fun m h1 h2 => hnone m (by omega) h2)

/-- For a non-negative counter value and at most 32 indices, the candidate the code builds
is the subset the specification assigns to the mask. -/
theorem selected_eq_mask_values (input : List Int) (m : Nat) :
    ∀ j, j ≤ 32 → selected input (m : Int) j = mask_values input m j := by
  intro j
  induction j with
  | zero => intro _; rfl
  | succ j ih =>
    intro hj
    rw [selected_succ, mask_values, ih (by omega), Nat.testBit_to_div_mod,
      Nat.mod_eq_of_lt (show j < 32 by omega)]
    by_cases hb : m / 2 ^ j % 2 = 1
    · rw [if_pos ((bit_test_nat m j).mpr hb), if_pos (decide_eq_true hb)]
    · rw [if_neg (fun h => hb ((bit_test_nat m j).mp h)), if_neg (by simpa using hb)]

theorem subset_inner_hit_mask (input : List Int) (target : Int) (hlen : input.length ≤ 32)
    (hB : abs_sum input < 2147483648) (m : Nat) (c : List Int)
    (h : subset_inner input target (m : Int) input.length 0 [] = some c) :
    ∃ j1 : Nat, 1 ≤ m % 2 ^ j1 ∧ m % 2 ^ j1 ≤ m ∧
      selected input ((m % 2 ^ j1 : Nat) : Int) input.length = c ∧ c.sum = target := by
  obtain ⟨j1, _, h2, h3, h4, h5⟩ := subset_inner_some input target (m : Int) input.length 0 c h
  have hj : j1 ≤ input.length := by omega
  have hsel := selected_mod input m j1 input.length hj hlen
  refine ⟨j1, ?_, Nat.mod_le _ _, by rw [hsel, h3], ?_⟩
  · by_contra hcon
    have h0 : m % 2 ^ j1 = 0 := by omega
    rw [h0, selected_zero, ← h3] at hsel
    rw [← hsel] at h4
    exact absurd h4 (by simp)
  · rw [← accumulate_of_sublist (h3 ▸ selected_sublist_input input (m : Int) j1 hj) hB]
    exact h5

theorem subset_sum_exh_smallest_mask (input : List Int) (target : Int) (hne : input ≠ [])
    (hlen : input.length ≤ 32) (hB : abs_sum input < 2147483648) (m0 : Nat) (h1 : 1 ≤ m0)
    (h2 : m0 < 2 ^ input.length) (h3 : m0 < 2147483648)
    (hhit : (selected input (m0 : Int) input.length).sum = target)
    (hmin : ∀ m : Nat, 1 ≤ m → m < m0 → (selected input (m : Int) input.length).sum ≠ target) :
    subset_sum_exh input target =
      Outcome.ret (some (selected input (m0 : Int) input.length)) := by
  rw [subset_sum_exh_eq_outer input target hne (by omega)]
  have hbefore : ∀ m, 0 ≤ m → m < m0 →
      subset_inner input target (m : Int) input.length 0 [] = none := by
    intro m _ hm
    cases hin : subset_inner input target (m : Int) input.length 0 [] with
    | none => rfl
    | some c =>
      obtain ⟨j1, g1, g2, g3, g4⟩ := subset_inner_hit_mask input target hlen hB m c hin
      exact absurd (g3 ▸ g4) (hmin _ g1 (by omega))
  have hat : subset_inner input target (m0 : Int) input.length 0 [] =
      some (selected input (m0 : Int) input.length) := by
    cases hin : subset_inner input target (m0 : Int) input.length 0 [] with
    | none =>
      exfalso
      apply subset_inner_none input target (m0 : Int) input.length 0 hin input.length
        (List.length_pos.mpr hne) (by omega)
      refine ⟨selected_length_pos input m0 h1 _ hlen h2, ?_⟩
      rw [accumulate_of_sublist (selected_sublist_input input _ _ (le_refl _)) hB]
      exact hhit
    | some c =>
      obtain ⟨j1, g1, g2, g3, g4⟩ := subset_inner_hit_mask input target hlen hB m0 c hin
      have g5 : m0 % 2 ^ j1 = m0 := by
        by_contra hcon
        exact absurd (g3 ▸ g4) (hmin _ g1 (by omega))
      rw [g5] at g3
      rw [g3]
  exact subset_outer_first input target _ m0 h3 h2 hat 4294967296 0 (Nat.zero_le _)
    (by omega) hbefore

theorem subset_sum_exh_no_mask (input : List Int) (target : Int) (hne : input ≠ [])
    (hlen : input.length ≤ 30) (hB : abs_sum input < 2147483648)
    (hno : ∀ m : Nat, 1 ≤ m → m < 2 ^ input.length →
      (selected input (m : Int) input.length).sum ≠ target) :
    subset_sum_exh input target = Outcome.ret none := by
  rw [subset_sum_exh_eq_outer input target hne (by omega)]
  have hpow : 2 ^ input.length ≤ 2 ^ 30 := Nat.pow_le_pow_right (by norm_num) hlen
  apply subset_outer_none input target hlen 4294967296 0 (Nat.zero_le _) (by omega)
  intro m _ hm
  cases hin : subset_inner input target (m : Int) input.length 0 [] with
  | none => rfl
  | some c =>
    obtain ⟨j1, g1, g2, g3, g4⟩ :=
      subset_inner_hit_mask input target (by omega) hB m c hin
    exact absurd (g3 ▸ g4) (hno _ g1 (by omega))

theorem nat_bit_succ (m j : Nat) : (m / 2 ^ (j + 1)) % 2 = ((m / 2) / 2 ^ j) % 2 := by
  rw [Nat.div_div_eq_div_mul, pow_succ, Nat.mul_comm]

theorem selected_cons (x : Int) (l : List Int) (m : Nat) :
    ∀ j : Nat, j + 1 ≤ 32 → selected (x :: l) (m : Int) (j + 1) =
      (if m % 2 = 1 then [x] else []) ++ selected l ((m / 2 : Nat) : Int) j := by
  intro j
  induction j with
  | zero =>
    intro _
    rw [selected_succ]
    have hb : Int.land ((m : Int) >>> ((0 : Nat) % 32)) 1 = 1 ↔ m % 2 = 1 := by
      rw [Nat.zero_mod, bit_test_nat, pow_zero, Nat.div_one]
    by_cases hc : m % 2 = 1
    · rw [if_pos (hb.mpr hc), if_pos hc]
      rfl
    · rw [if_neg (fun h => hc (hb.mp h)), if_neg hc]
      rfl
  | succ j ih =>
    intro hj
    rw [selected_succ, ih (by omega), selected_succ l]
    have hb : Int.land ((m : Int) >>> ((j + 1) % 32)) 1 = 1 ↔
        Int.land (((m / 2 : Nat) : Int) >>> (j % 32)) 1 = 1 := by
      rw [Nat.mod_eq_of_lt (show j + 1 < 32 by omega),
        Nat.mod_eq_of_lt (show j < 32 by omega), bit_test_nat, bit_test_nat, nat_bit_succ]
    by_cases hc : Int.land (((m / 2 : Nat) : Int) >>> (j % 32)) 1 = 1
    · rw [if_pos (hb.mpr hc), if_pos hc, List.getD_cons_succ, List.append_assoc]
    · rw [if_neg (fun h => hc (hb.mp h)), if_neg hc]

theorem sublist_is_selected {c input : List Int} (h : c.Sublist input) :
    input.length ≤ 32 →
      ∃ m : Nat, m < 2 ^ input.length ∧ selected input (m : Int) input.length = c := by
  induction h with
  | slnil => intro _; exact ⟨0, by simp, rfl⟩
  | @cons c l x _ ih =>
    intro hl
    rw [List.length_cons] at hl
    obtain ⟨m, h1, h2⟩ := ih (by omega)
    refine ⟨2 * m, by rw [List.length_cons, pow_succ]; omega, ?_⟩
    rw [List.length_cons, selected_cons _ _ _ _ hl, if_neg (by omega),
      show 2 * m / 2 = m by omega, h2]
    rfl
  | @cons₂ c l x _ ih =>
    intro hl
    rw [List.length_cons] at hl
    obtain ⟨m, h1, h2⟩ := ih (by omega)
    refine ⟨2 * m + 1, by rw [List.length_cons, pow_succ]; omega, ?_⟩
    rw [List.length_cons, selected_cons _ _ _ _ hl, if_pos (by omega),
      show (2 * m + 1) / 2 = m by omega, h2]
    rfl

theorem sublist_mask (input c : List Int) (hlen : input.length ≤ 32) (hc : c ≠ [])
    (hsub : c.Sublist input) :
    ∃ m : Nat, 1 ≤ m ∧ m < 2 ^ input.length ∧ selected input (m : Int) input.length = c := by
  obtain ⟨m, h1, h2⟩ := sublist_is_selected hsub hlen
  refine ⟨m, ?_, h1, h2⟩
  by_contra hcon
  have h0 : m = 0 := by omega
  rw [h0, selected_zero] at h2
  exact hc h2.symm

theorem smallest_mask_exists (input : List Int) (target : Int) (hlen : input.length ≤ 32)
    (c : List Int) (hc : c ≠ []) (hsub : c.Sublist input) (hsum : c.sum = target) :
    ∃ m0 : Nat, 1 ≤ m0 ∧ m0 < 2 ^ input.length ∧
      (selected input (m0 : Int) input.length).sum = target ∧
      ∀ m : Nat, 1 ≤ m → m < m0 → (selected input (m : Int) input.length).sum ≠ target := by
  obtain ⟨m, h1, h2, h3⟩ := sublist_mask input c hlen hc hsub
  have hex : ∃ k : Nat, 1 ≤ k ∧ (selected input (k : Int) input.length).sum = target :=
    ⟨m, h1, by rw [h3]; exact hsum⟩
  refine ⟨Nat.find hex, (Nat.find_spec hex).1, ?_, (Nat.find_spec hex).2, ?_⟩
  · exact lt_of_le_of_lt (Nat.find_min' hex ⟨h1, by rw [h3]; exact hsum⟩) h2
  · intro k hk1 hk2 hk3
    exact Nat.find_min hex hk2 ⟨hk1, hk3⟩

/-- For an input of 1 to 31 elements whose absolute values sum to less than `2^31`, when
some non-empty sublist sums to the target `subset_sum_exh` returns the values selected by
the smallest mask in `1..2^n-1` whose values sum to the target. -/
theorem subset_sum_exh_returns_smallest (input : List Int) (target : Int) (hne : input ≠ [])
    (hlen : input.length ≤ 31) (hB : abs_sum input < 2147483648) (c : List Int) (hc : c ≠ [])
    (hsub : c.Sublist input) (hsum : c.sum = target) :
    ∃ m0 : Nat, 1 ≤ m0 ∧ m0 < 2 ^ input.length ∧
      (selected input (m0 : Int) input.length).sum = target ∧
      (∀ m : Nat, 1 ≤ m → m < m0 →
        (selected input (m : Int) input.length).sum ≠ target) ∧
      subset_sum_exh input target =
        Outcome.ret (some (selected input (m0 : Int) input.length)) := by
  obtain ⟨m0, h1, h2, h3, h4⟩ :=
    smallest_mask_exists input target (by omega) c hc hsub hsum
  have hpow : 2 ^ input.length ≤ 2 ^ 31 := Nat.pow_le_pow_right (by norm_num) hlen
  exact ⟨m0, h1, h2, h3, h4, subset_sum_exh_smallest_mask input target hne (by omega) hB m0 h1
    h2 (by omega) h3 h4⟩

/-- For an input of 1 to 30 elements whose absolute values sum to less than `2^31`,
`subset_sum_exh` returns the absent value exactly when no non-empty sublist of the input
sums to the target. -/
theorem subset_sum_exh_absent_iff (input : List Int) (target : Int) (hne : input ≠ [])
    (hlen : input.length ≤ 30) (hB : abs_sum input < 2147483648) :
    subset_sum_exh input target = Outcome.ret none ↔
      ∀ c : List Int, c ≠ [] → c.Sublist input → c.sum ≠ target := by
  constructor
  · intro h c hc hsub hsum
    obtain ⟨m0, _, _, _, _, h5⟩ := subset_sum_exh_returns_smallest input target hne (by omega)
      hB c hc hsub hsum
    rw [h] at h5
    injection h5 with h5
    exact absurd h5 (by simp)
  · intro h
    apply subset_sum_exh_no_mask input target hne hlen hB
    intro m h1 h2
    exact h _ (List.ne_nil_of_length_pos (selected_length_pos input m h1 _ (by omega) h2))
      (selected_sublist_input input _ _ (le_refl _))

/-! ## max_subarray_dbh without the bound -/

theorem mk2_ret {input : List Int} {b e : Nat} {r : summed_span}
    (h : summed_span.mk2 input b e = Outcome.ret r) :
    b < e ∧ r = ⟨b, e, accumulate (slice input b e)⟩ := by
  unfold summed_span.mk2 at h
  by_cases hbe : b < e
  · rw [if_pos hbe] at h
    injection h with h
    exact ⟨hbe, h.symm⟩
  · rw [if_neg hbe] at h
    exact Outcome.noConfusion h

theorem mk2_ne_hang (input : List Int) (b e : Nat) :
    summed_span.mk2 input b e ≠ Outcome.hang := by
  unfold summed_span.mk2
  split <;> exact fun h => Outcome.noConfusion h

theorem scan_step_idx (input : List Int) (i : Nat) (s : scan_state) :
    (scan_step input i s).idx = s.idx ∨ (scan_step input i s).idx = i := by
  unfold scan_step
  dsimp only
  split
  · exact Or.inr rfl
  · exact Or.inl rfl

theorem scan_left_idx (input : List Int) :
    ∀ (k i : Nat) (s : scan_state), k ≤ i + 1 →
      (scan_left input k i s).idx = s.idx ∨
        (i + 1 - k ≤ (scan_left input k i s).idx ∧ (scan_left input k i s).idx ≤ i) := by
  intro k
  induction k with
  | zero => intro i s _; exact Or.inl rfl
  | succ k ih =>
    intro i s hk
    unfold scan_left
    by_cases hk0 : k = 0
    · subst hk0
      unfold scan_left
      rcases scan_step_idx input i s with h | h
      · exact Or.inl h
      · exact Or.inr ⟨by omega, by omega⟩
    · rcases ih (i - 1) (scan_step input i s) (by omega) with h | ⟨h1, h2⟩
      · rcases scan_step_idx input i s with h3 | h3
        · exact Or.inl (h.trans h3)
        · exact Or.inr ⟨by omega, by omega⟩
      · exact Or.inr ⟨by omega, by omega⟩

theorem scan_right_idx (input : List Int) :
    ∀ (k i : Nat) (s : scan_state),
      (scan_right input k i s).idx = s.idx ∨
        (i ≤ (scan_right input k i s).idx ∧ (scan_right input k i s).idx < i + k) := by
  intro k
  induction k with
  | zero => intro i s; exact Or.inl rfl
  | succ k ih =>
    intro i s
    unfold scan_right
    rcases ih (i + 1) (scan_step input i s) with h | ⟨h1, h2⟩
    · rcases scan_step_idx input i s with h3 | h3
      · exact Or.inl (h.trans h3)
      · exact Or.inr ⟨by omega, by omega⟩
    · exact Or.inr ⟨by omega, by omega⟩

theorem crossing_ret (input : List Int) (low m high : Nat) (hlm : low ≤ m) (hmh : m < high)
    (r : summed_span) (h : maximum_subarray_crossing input low m high = Outcome.ret r) :
    r.begin_ < r.end_ ∧ r.end_ ≤ high + 1 ∧
      r.sum_ = accumulate (slice input r.begin_ r.end_) := by
  unfold maximum_subarray_crossing at h
  dsimp only at h
  obtain ⟨h1, h2⟩ := mk2_ret h
  have h3 := scan_right_idx input (high - m) (m + 1)
    ⟨(scan_left input (m + 1 - low) m ⟨0, -9999999, 0⟩).sum, -9999999, 0⟩
  subst h2
  dsimp only at h3 ⊢
  refine ⟨h1, ?_, rfl⟩
  rcases h3 with h3 | ⟨_, h4⟩
  · omega
  · omega

theorem recurse_ret (input : List Int) :
    ∀ (fuel low high : Nat) (r : summed_span), low ≤ high →
      maximum_subarray_recurse input fuel low high = Outcome.ret r →
      r.begin_ < r.end_ ∧ r.end_ ≤ high + 1 ∧
        r.sum_ = accumulate (slice input r.begin_ r.end_) := by
  intro fuel
  induction fuel with
  | zero => intro low high r _ h; exact Outcome.noConfusion h
  | succ fuel ih =>
    intro low high r hlh h
    unfold maximum_subarray_recurse at h
    by_cases heq : low = high
    · rw [if_pos heq] at h
      obtain ⟨h1, h2⟩ := mk2_ret h
      subst h2
      exact ⟨h1, by dsimp only; omega, rfl⟩
    · rw [if_neg heq] at h
      dsimp only at h
      have hm1 : low ≤ (low + high) / 2 := by omega
      have hm2 : (low + high) / 2 < high := by omega
      generalize (low + high) / 2 = m at hm1 hm2 h
      cases hL : maximum_subarray_recurse input fuel low m with
      | abort => rw [hL] at h; exact Outcome.noConfusion h
      | hang => rw [hL] at h; exact Outcome.noConfusion h
      | ret L =>
        rw [hL] at h
        dsimp only at h
        cases hR : maximum_subarray_recurse input fuel (m + 1) high with
        | abort => rw [hR] at h; exact Outcome.noConfusion h
        | hang => rw [hR] at h; exact Outcome.noConfusion h
        | ret R =>
          rw [hR] at h
          dsimp only at h
          cases hC : maximum_subarray_crossing input low m high with
          | abort => rw [hC] at h; exact Outcome.noConfusion h
          | hang => rw [hC] at h; exact Outcome.noConfusion h
          | ret C =>
            rw [hC] at h
            dsimp only at h
            have gL := ih low m L hm1 hL
            have gR := ih (m + 1) high R (by omega) hR
            have gC := crossing_ret input low m high hm1 hm2 C hC
            split at h
            · injection h with h
              subst h
              exact gR
            · split at h
              · injection h with h
                subst h
                exact ⟨gL.1, by omega, gL.2.2⟩
              · injection h with h
                subst h
                exact gC

theorem recurse_ne_hang (input : List Int) :
    ∀ (fuel low high : Nat), low ≤ high → high - low < fuel →
      maximum_subarray_recurse input fuel low high ≠ Outcome.hang := by
  intro fuel
  induction fuel with
  | zero => intro low high _ h; omega
  | succ fuel ih =>
    intro low high hlh hfuel h
    unfold maximum_subarray_recurse at h
    by_cases heq : low = high
    · rw [if_pos heq] at h
      exact mk2_ne_hang _ _ _ h
    · rw [if_neg heq] at h
      dsimp only at h
      have hm1 : low ≤ (low + high) / 2 := by omega
      have hm2 : (low + high) / 2 < high := by omega
      generalize (low + high) / 2 = m at hm1 hm2 h
      have gL := ih low m hm1 (by omega)
      have gR := ih (m + 1) high (by omega) (by omega)
      cases hL : maximum_subarray_recurse input fuel low m with
      | abort => rw [hL] at h; exact Outcome.noConfusion h
      | hang => exact gL hL
      | ret L =>
        rw [hL] at h
        dsimp only at h
        cases hR : maximum_subarray_recurse input fuel (m + 1) high with
        | abort => rw [hR] at h; exact Outcome.noConfusion h
        | hang => exact gR hR
        | ret R =>
          rw [hR] at h
          dsimp only at h
          cases hC : maximum_subarray_crossing input low m high with
          | abort => rw [hC] at h; exact Outcome.noConfusion h
          | hang => exact mk2_ne_hang _ _ _ hC
          | ret C =>
            rw [hC] at h
            dsimp only at h
            split at h
            · exact Outcome.noConfusion h
            · split at h <;> exact Outcome.noConfusion h

theorem crossing_calls_ranges (input : List Int) :
    ∀ (fuel low high : Nat), low ≤ high → ∀ c ∈ crossing_calls input fuel low high,
      low ≤ c.1 ∧ c.1 ≤ c.2.1 ∧ c.2.1 < c.2.2 ∧ c.2.2 ≤ high := by
  intro fuel
  induction fuel with
  | zero => intro low high _ c hc; simp [crossing_calls] at hc
  | succ fuel ih =>
    intro low high hlh c hc
    unfold crossing_calls at hc
    by_cases heq : low = high
    · rw [if_pos heq] at hc
      simp at hc
    · rw [if_neg heq] at hc
      dsimp only at hc
      have hm1 : low ≤ (low + high) / 2 := by omega
      have hm2 : (low + high) / 2 < high := by omega
      generalize (low + high) / 2 = m at hm1 hm2 hc
      have gL := ih low m hm1 c
      have gR := ih (m + 1) high (by omega) c
      have key : c ∈ crossing_calls input fuel low m ∨
          c ∈ crossing_calls input fuel (m + 1) high ∨ c = (low, m, high) := by
        split at hc
        · split at hc
          · rcases List.mem_append.mp hc with h | h
            · rcases List.mem_append.mp h with h | h
              · exact Or.inl h
              · exact Or.inr (Or.inl h)
            · exact Or.inr (Or.inr (List.mem_singleton.mp h))
          · rcases List.mem_append.mp hc with h | h
            · exact Or.inl h
            · exact Or.inr (Or.inl h)
        · exact Or.inl hc
      rcases key with h | h | h
      · have := gL h
        omega
      · have := gR h
        omega
      · subst h
        dsimp only
        omega

theorem crossing_scans_spec (input : List Int) (hB : abs_sum input < 9999999)
    (low m high : Nat) (hlm : low ≤ m) (hmh : m < high) :
    ∃ bg en, maximum_subarray_crossing input low m high =
        Outcome.ret ⟨bg, en + 1, span_sum input bg (en + 1)⟩ ∧
      low ≤ bg ∧ bg ≤ m ∧ m + 1 ≤ en ∧ en ≤ high ∧
      crossing_left_sum input low m = span_sum input bg (m + 1) ∧
      crossing_right_sum input low m high = span_sum input low (en + 1) := by
  unfold maximum_subarray_crossing crossing_left_sum crossing_right_sum
  dsimp only
  have hl := scan_left_inv input hB low m (m + 1 - low) (m + 1) ⟨0, -9999999, 0⟩ (by omega)
    (le_refl _) (span_sum_self input (m + 1)).symm
    (scan_init_inv _ _ _ 0 (fun y hy => by omega))
  rw [show m + 1 - 1 = m by omega] at hl
  generalize scan_left input (m + 1 - low) m ⟨0, -9999999, 0⟩ = l at hl
  obtain ⟨hlsum, hlinv⟩ := hl
  have hr := scan_right_inv input hB low m high hlm (high - m) (m + 1)
    ⟨l.sum, -9999999, 0⟩ (by omega) (le_refl _) hlsum
    (scan_init_inv _ _ _ l.sum (fun y hy => by omega))
  generalize scan_right input (high - m) (m + 1) ⟨l.sum, -9999999, 0⟩ = r at hr
  have hl1 := (hlinv.1 m ⟨hlm, le_refl _⟩).1
  have hl2 := span_sum_gt_sentinel input hB m (m + 1)
  have hr1 := (hr.1 high ⟨by omega, le_refl _⟩).1
  have hr2 := span_sum_gt_sentinel input hB low (high + 1)
  dsimp only at hl1 hr1
  rcases hlinv.2 with hx | ⟨⟨hl3, hl4⟩, hl5⟩
  · omega
  rcases hr.2 with hx | ⟨⟨hr3, hr4⟩, hr5⟩
  · omega
  dsimp only at hl5 hr5
  exact ⟨l.idx, r.idx, mk2_eq input hB (by omega), hl3, hl4, hr3, hr4, hl5, hr5⟩

/-! ## Claims about assertions, the crossing helper and the recursion -/

/-- C11 (code defect): on `[0, 5, -20000000]` the call
`maximum_subarray_crossing(input, 0, 1, 2)` made by `max_subarray_dbh` constructs the span
with `begin = 1` and `end = 1`, so the assertion `begin < end` of the constructor fails.
The rightward running sum `5 - 20000000` does not exceed the initial
`right_sum = -9999999`, so `end` keeps its initial value 0. -/
theorem dbh_assertion_reached :
    maximum_subarray_crossing [0, 5, -20000000] 0 1 2 = Outcome.abort ∧
      max_subarray_dbh [0, 5, -20000000] = Outcome.abort := by
  decide

/-- C12: on the empty input `max_subarray_exh`, `max_subarray_dbh` and `subset_sum_exh`
stop on their assertion, and `subset_sum_exh` stops on its assertion on every input of 64
or more elements, whatever the target: no span, subset or absent value is returned. -/
theorem precondition_violations_abort (input : List Int) (target : Int)
    (h : input = [] ∨ 64 ≤ input.length) :
    subset_sum_exh input target = Outcome.abort ∧
      max_subarray_exh [] = Outcome.abort ∧ max_subarray_dbh [] = Outcome.abort := by
  refine ⟨?_, rfl, rfl⟩
  unfold subset_sum_exh
  rcases h with h | h
  · subst h
    rfl
  · by_cases he : input.isEmpty = true
    · rw [if_pos he]
    · rw [if_neg he, if_pos (by omega)]

theorem precondition_violations_abort_witness :
    (List.replicate 64 (0 : Int) = [] ∨ 64 ≤ (List.replicate 64 (0 : Int)).length) ∧
      subset_sum_exh (List.replicate 64 0) 0 = Outcome.abort ∧
      max_subarray_exh [] = Outcome.abort ∧ max_subarray_dbh [] = Outcome.abort :=
  ⟨Or.inr (by decide), precondition_violations_abort (List.replicate 64 0) 0
    (Or.inr (by decide))⟩

/-- C13: on `[-2, 1, -3, 4, -1, 2, 1, -5, 4]` both `max_subarray_exh` and
`max_subarray_dbh` return the span with start 3, end 7 and sum 6, whose values are
`[4, -1, 2, 1]`. -/
theorem example_span_3_7 :
    max_subarray_exh [-2, 1, -3, 4, -1, 2, 1, -5, 4] = Outcome.ret ⟨3, 7, 6⟩ ∧
      max_subarray_dbh [-2, 1, -3, 4, -1, 2, 1, -5, 4] = Outcome.ret ⟨3, 7, 6⟩ ∧
      slice [-2, 1, -3, 4, -1, 2, 1, -5, 4] 3 7 = [4, -1, 2, 1] := by
  set_option maxRecDepth 20000 in
  exact ⟨by decide, by decide, by decide⟩

/-- C15 (code defect): on `[-3, -3]` with `low = 0`, `high = 1` the candidates of
`maximum_subarray_recurse` are `entirely_left` with sum `-3`, `entirely_right` with sum
`-3` and `crossing` with sum `-6`; the call returns the crossing span, whose sum is
strictly smaller than the sums of the other two. -/
theorem recurse_returns_smaller_on_tie :
    maximum_subarray_recurse [-3, -3] 1 0 0 = Outcome.ret ⟨0, 1, -3⟩ ∧
      maximum_subarray_recurse [-3, -3] 1 1 1 = Outcome.ret ⟨1, 2, -3⟩ ∧
      maximum_subarray_crossing [-3, -3] 0 0 1 = Outcome.ret ⟨0, 2, -6⟩ ∧
      maximum_subarray_recurse [-3, -3] 2 0 1 = Outcome.ret ⟨0, 2, -6⟩ := by
  decide

/-- C16: for an input whose absolute values sum to less than 9999999 and
`low ≤ middle < high < n`, `maximum_subarray_crossing` returns a span `[begin, end + 1)`
with `low ≤ begin ≤ middle < end ≤ high` that stores its true sum, and that sum is at
least the sum of every span `input[i..j]` with `low ≤ i ≤ middle < j ≤ high`. -/
theorem crossing_returns_best_straddling (input : List Int) (hB : abs_sum input < 9999999)
    (low middle high : Nat) (h1 : low ≤ middle) (h2 : middle < high)
    (_h3 : high < input.length) :
    ∃ bg en, maximum_subarray_crossing input low middle high =
        Outcome.ret ⟨bg, en + 1, span_sum input bg (en + 1)⟩ ∧
      low ≤ bg ∧ bg ≤ middle ∧ middle < en ∧ en ≤ high ∧
      ∀ i j, low ≤ i → i ≤ middle → middle < j → j ≤ high →
        span_sum input i (j + 1) ≤ span_sum input bg (en + 1) := by
  obtain ⟨bg, en, g1, g2, g3, g4, g5, g6, g7⟩ := crossing_spec input hB low middle high h1 h2
  refine ⟨bg, en, g1, g2, g3, by omega, g5, ?_⟩
  intro i j hi1 hi2 hj1 hj2
  have e1 := span_sum_add input (show i ≤ middle + 1 by omega) (show middle + 1 ≤ j + 1 by omega)
  have e2 := span_sum_add input (show bg ≤ middle + 1 by omega)
    (show middle + 1 ≤ en + 1 by omega)
  have e3 := (g6 i hi1 hi2).1
  have e4 := (g7 j (by omega) hj2).1
  omega

theorem crossing_returns_best_straddling_witness :
    abs_sum [1, -2, 3, 4] < 9999999 ∧ 0 ≤ 1 ∧ 1 < 3 ∧ 3 < ([1, -2, 3, 4] : List Int).length ∧
      ∃ bg en, maximum_subarray_crossing [1, -2, 3, 4] 0 1 3 =
          Outcome.ret ⟨bg, en + 1, span_sum [1, -2, 3, 4] bg (en + 1)⟩ ∧
        0 ≤ bg ∧ bg ≤ 1 ∧ 1 < en ∧ en ≤ 3 ∧
        ∀ i j, 0 ≤ i → i ≤ 1 → 1 < j → j ≤ 3 →
          span_sum [1, -2, 3, 4] i (j + 1) ≤ span_sum [1, -2, 3, 4] bg (en + 1) :=
  ⟨by decide, by decide, by decide, by decide,
    crossing_returns_best_straddling [1, -2, 3, 4] (by decide) 0 1 3 (by decide) (by decide)
      (by decide)⟩

/-- C17 (as stated, refuted): on `[0, 1, 1, 0]` with `low = 0`, `middle = 1`, `high = 3`
the recorded `begin` is 1 although the smaller index 0 reaches the same leftward sum, and
the recorded `end` is 2 although the larger index 3 reaches the same rightward sum. -/
theorem crossing_keeps_first_maximizer_counter :
    ∃ bg en, maximum_subarray_crossing [0, 1, 1, 0] 0 1 3 = Outcome.ret ⟨bg, en + 1, 2⟩ ∧
      (∃ i, 0 ≤ i ∧ i ≤ 1 ∧ i < bg ∧
        span_sum [0, 1, 1, 0] i (1 + 1) = span_sum [0, 1, 1, 0] bg (1 + 1)) ∧
      (∃ j, 1 + 1 ≤ j ∧ j ≤ 3 ∧ en < j ∧
        span_sum [0, 1, 1, 0] (1 + 1) (j + 1) = span_sum [0, 1, 1, 0] (1 + 1) (en + 1)) :=
  ⟨1, 2, by decide, ⟨0, by decide, by decide, by decide, by decide⟩,
    ⟨3, by decide, by decide, by decide, by decide⟩⟩

/-- C17 (amended): for an input whose absolute values sum to less than 9999999 and
`low ≤ middle < high < n`, the recorded `begin` is the largest `i` in `[low, middle]`
that maximizes the sum of `input[i..middle]`, and the recorded `end` is the smallest `j`
in `[middle + 1, high]` that maximizes the sum of `input[middle+1..j]`: each scan keeps
the first maximizer it meets. -/
theorem crossing_keeps_first_maximizer (input : List Int) (hB : abs_sum input < 9999999)
    (low middle high : Nat) (h1 : low ≤ middle) (h2 : middle < high)
    (_h3 : high < input.length) :
    ∃ bg en, maximum_subarray_crossing input low middle high =
        Outcome.ret ⟨bg, en + 1, span_sum input bg (en + 1)⟩ ∧
      low ≤ bg ∧ bg ≤ middle ∧ middle + 1 ≤ en ∧ en ≤ high ∧
      (∀ i, low ≤ i → i ≤ middle →
        span_sum input i (middle + 1) ≤ span_sum input bg (middle + 1) ∧
        (span_sum input i (middle + 1) = span_sum input bg (middle + 1) → i ≤ bg)) ∧
      (∀ j, middle + 1 ≤ j → j ≤ high →
        span_sum input (middle + 1) (j + 1) ≤ span_sum input (middle + 1) (en + 1) ∧
        (span_sum input (middle + 1) (j + 1) = span_sum input (middle + 1) (en + 1) →
          en ≤ j)) :=
  crossing_spec input hB low middle high h1 h2

theorem crossing_keeps_first_maximizer_witness :
    abs_sum [0, 1, 1, 0] < 9999999 ∧ 0 ≤ 1 ∧ 1 < 3 ∧ 3 < ([0, 1, 1, 0] : List Int).length ∧
      ∃ bg en, maximum_subarray_crossing [0, 1, 1, 0] 0 1 3 =
          Outcome.ret ⟨bg, en + 1, span_sum [0, 1, 1, 0] bg (en + 1)⟩ ∧
        0 ≤ bg ∧ bg ≤ 1 ∧ 1 + 1 ≤ en ∧ en ≤ 3 ∧
        (∀ i, 0 ≤ i → i ≤ 1 →
          span_sum [0, 1, 1, 0] i (1 + 1) ≤ span_sum [0, 1, 1, 0] bg (1 + 1) ∧
          (span_sum [0, 1, 1, 0] i (1 + 1) = span_sum [0, 1, 1, 0] bg (1 + 1) → i ≤ bg)) ∧
        (∀ j, 1 + 1 ≤ j → j ≤ 3 →
          span_sum [0, 1, 1, 0] (1 + 1) (j + 1) ≤ span_sum [0, 1, 1, 0] (1 + 1) (en + 1) ∧
          (span_sum [0, 1, 1, 0] (1 + 1) (j + 1) = span_sum [0, 1, 1, 0] (1 + 1) (en + 1) →
            en ≤ j)) :=
  ⟨by decide, by decide, by decide, by decide,
    crossing_keeps_first_maximizer [0, 1, 1, 0] (by decide) 0 1 3 (by decide) (by decide)
      (by decide)⟩

/-- C18 (as stated, refuted): on `[1, 1]` with `low = 0`, `middle = 0`, `high = 1` the
leftward scan records `left_sum = 1`, the rightward scan records `right_sum = 2`, and the
returned span has sum 2, not `left_sum + right_sum = 3`. -/
theorem crossing_sum_not_left_plus_right :
    crossing_left_sum [1, 1] 0 0 = 1 ∧ crossing_right_sum [1, 1] 0 0 1 = 2 ∧
      ∃ c, maximum_subarray_crossing [1, 1] 0 0 1 = Outcome.ret c ∧ c.sum_ = 2 ∧
        c.sum_ ≠ crossing_left_sum [1, 1] 0 0 + crossing_right_sum [1, 1] 0 0 1 :=
  ⟨by decide, by decide, ⟨0, 2, 2⟩, by decide, rfl, by decide⟩

/-- C18 (amended): for an input whose absolute values sum to less than 9999999 and
`low ≤ middle < high < n`, the sum of the returned crossing span equals
`left_sum + right_sum` minus the sum of `input[low..middle]`: the rightward scan continues
the running sum of the leftward scan, so `right_sum` is the best total of
`input[low..j]`. -/
theorem crossing_sum_left_plus_right_minus_left_total (input : List Int)
    (hB : abs_sum input < 9999999) (low middle high : Nat) (h1 : low ≤ middle)
    (h2 : middle < high) (_h3 : high < input.length) :
    ∃ c, maximum_subarray_crossing input low middle high = Outcome.ret c ∧
      c.sum_ = crossing_left_sum input low middle + crossing_right_sum input low middle high -
        span_sum input low (middle + 1) := by
  obtain ⟨bg, en, g1, g2, g3, g4, g5, g6, g7⟩ :=
    crossing_scans_spec input hB low middle high h1 h2
  refine ⟨_, g1, ?_⟩
  dsimp only
  rw [g6, g7, span_sum_add input (show bg ≤ middle + 1 by omega)
    (show middle + 1 ≤ en + 1 by omega),
    span_sum_add input (show low ≤ middle + 1 by omega) (show middle + 1 ≤ en + 1 by omega)]
  ring

theorem crossing_sum_left_plus_right_minus_left_total_witness :
    abs_sum [1, 1] < 9999999 ∧ 0 ≤ 0 ∧ 0 < 1 ∧ 1 < ([1, 1] : List Int).length ∧
      ∃ c, maximum_subarray_crossing [1, 1] 0 0 1 = Outcome.ret c ∧
        c.sum_ = crossing_left_sum [1, 1] 0 0 + crossing_right_sum [1, 1] 0 0 1 -
          span_sum [1, 1] 0 (0 + 1) :=
  ⟨by decide, by decide, by decide, by decide,
    crossing_sum_left_plus_right_minus_left_total [1, 1] (by decide) 0 0 1 (by decide)
      (by decide) (by decide)⟩

/-- C19: for `low < high` the split point `middle = (low + high) / 2` satisfies
`low ≤ middle < high`, so both recursive calls are on non-empty ranges shorter than
`[low, high]`; for `low ≤ high` a call of `maximum_subarray_recurse` comes to an end
(it returns a span or stops on an assertion) within recursion depth `high - low + 1`, and
every call of `maximum_subarray_crossing` it makes has `low ≤ middle < high` for its own
arguments, so none is on a single-element range. -/
theorem recurse_terminates (input : List Int) (low high : Nat) (hlh : low ≤ high) :
    (low < high → low ≤ (low + high) / 2 ∧ (low + high) / 2 < high ∧
        (low + high) / 2 - low < high - low ∧ high - ((low + high) / 2 + 1) < high - low) ∧
      (∀ fuel, high - low < fuel →
        maximum_subarray_recurse input fuel low high ≠ Outcome.hang) ∧
      (∀ fuel, ∀ c ∈ crossing_calls input fuel low high,
        low ≤ c.1 ∧ c.1 ≤ c.2.1 ∧ c.2.1 < c.2.2 ∧ c.2.2 ≤ high) := by
  refine ⟨fun h => ⟨by omega, by omega, by omega, by omega⟩, ?_, ?_⟩
  · intro fuel hf
    exact recurse_ne_hang input fuel low high hlh hf
  · intro fuel c hc
    exact crossing_calls_ranges input fuel low high hlh c hc

theorem recurse_terminates_witness :
    0 ≤ 2 ∧
      ((0 < 2 → 0 ≤ (0 + 2) / 2 ∧ (0 + 2) / 2 < 2 ∧
        (0 + 2) / 2 - 0 < 2 - 0 ∧ 2 - ((0 + 2) / 2 + 1) < 2 - 0) ∧
      (∀ fuel, 2 - 0 < fuel →
        maximum_subarray_recurse [3, -1, 2] fuel 0 2 ≠ Outcome.hang) ∧
      (∀ fuel, ∀ c ∈ crossing_calls [3, -1, 2] fuel 0 2,
        0 ≤ c.1 ∧ c.1 ≤ c.2.1 ∧ c.2.1 < c.2.2 ∧ c.2.2 ≤ 2)) :=
  ⟨by decide, recurse_terminates [3, -1, 2] 0 2 (by decide)⟩

/-- C20 (as stated, refuted): on `[2147483647, 2147483647]` `max_subarray_dbh` returns the
span `[0, 2)` with stored sum `-2`, while the sum of the input over `[0, 2)` is
`4294967294`; on `[-2147483648, -1]` it returns the span `[0, 2)` with stored sum
`2147483647`, which is greater than the sum of every non-empty span of the input (the
largest is `-1`). In both cases the `int` sum computed by the constructor wraps around. -/
theorem dbh_stored_sum_wraps_counter :
    max_subarray_dbh [2147483647, 2147483647] = Outcome.ret ⟨0, 2, -2⟩ ∧
      span_sum [2147483647, 2147483647] 0 2 = 4294967294 ∧
      max_subarray_dbh [-2147483648, -1] = Outcome.ret ⟨0, 2, 2147483647⟩ ∧
      span_sum [-2147483648, -1] 0 1 = -2147483648 ∧
      span_sum [-2147483648, -1] 1 2 = -1 ∧
      span_sum [-2147483648, -1] 0 2 = -2147483649 := by
  decide

/-- C20 (amended): whenever `max_subarray_dbh` returns a span, the span is a non-empty span
of the input and its stored sum is the `int` sum of the input over `[start, end)` computed
by the constructor; when the absolute values of the input sum to less than `2^31`, so that no
`int` addition overflows, the stored sum is the mathematical sum over `[start, end)` and
is at most every upper bound of the sums of the non-empty spans of the input. -/
theorem dbh_sum_is_span_sum (input : List Int) (r : summed_span)
    (h : max_subarray_dbh input = Outcome.ret r) :
    is_span input r.begin_ r.end_ ∧ r.sum_ = accumulate (slice input r.begin_ r.end_) ∧
      (abs_sum input < 2147483648 →
        r.sum_ = span_sum input r.begin_ r.end_ ∧
        ∀ M : Int, (∀ b e, is_span input b e → span_sum input b e ≤ M) → r.sum_ ≤ M) := by
  unfold max_subarray_dbh at h
  by_cases he : input.isEmpty = true
  · rw [if_pos he] at h
    exact Outcome.noConfusion h
  · rw [if_neg he] at h
    have hpos : 0 < input.length := by
      cases input with
      | nil => exact absurd rfl he
      | cons _ _ => simp
    obtain ⟨g1, g2, g3⟩ := recurse_ret input input.length 0 (input.length - 1) r
      (Nat.zero_le _) h
    have hs : is_span input r.begin_ r.end_ := ⟨g1, by omega⟩
    refine ⟨hs, g3, fun hB => ?_⟩
    have hsum : r.sum_ = span_sum input r.begin_ r.end_ := by
      rw [g3]
      exact accumulate_of_sublist (slice_sublist input _ _) hB
    exact ⟨hsum, fun M hM => hsum ▸ hM _ _ hs⟩

theorem dbh_sum_is_span_sum_witness :
    max_subarray_dbh [1, -5, 1] = Outcome.ret ⟨0, 3, -3⟩ ∧
      is_span [1, -5, 1] 0 3 ∧ (-3 : Int) = accumulate (slice [1, -5, 1] 0 3) ∧
      (abs_sum [1, -5, 1] < 2147483648 →
        (-3 : Int) = span_sum [1, -5, 1] 0 3 ∧
        ∀ M : Int, (∀ b e, is_span [1, -5, 1] b e → span_sum [1, -5, 1] b e ≤ M) → -3 ≤ M) :=
  ⟨by decide, dbh_sum_is_span_sum [1, -5, 1] ⟨0, 3, -3⟩ (by decide)⟩

/-! ## The work of max_subarray_dbh -/

theorem crossing_work_le (input : List Int) (hB : abs_sum input < 9999999)
    (low m high : Nat) (hlm : low ≤ m) (hmh : m < high) :
    crossing_work input low m high ≤ 2 * (high - low + 1) := by
  obtain ⟨bg, en, g1, g2, g3, g4, g5, _, _⟩ := crossing_scans_spec input hB low m high hlm hmh
  unfold maximum_subarray_crossing at g1
  dsimp only at g1
  obtain ⟨_, g6⟩ := mk2_ret g1
  injection g6 with g7 g8 _
  unfold crossing_work
  dsimp only
  omega

theorem recurse_work_step (input : List Int) (fuel low high : Nat) (hne : low ≠ high) :
    recurse_work input (fuel + 1) low high ≤
      recurse_work input fuel low ((low + high) / 2) +
        recurse_work input fuel ((low + high) / 2 + 1) high +
        crossing_work input low ((low + high) / 2) high := by
  rw [recurse_work, if_neg hne]
  dsimp only
  split
  · split
    · exact le_refl _
    · exact Nat.le_add_right _ _
  · omega

theorem recurse_work_le (input : List Int) (hB : abs_sum input < 9999999) :
    ∀ (fuel low high : Nat), low ≤ high → high - low < fuel →
      recurse_work input fuel low high ≤
        2 * (high - low + 1) * (Nat.clog 2 (high - low + 1) + 1) := by
  intro fuel
  induction fuel with
  | zero => intro low high _ h; omega
  | succ fuel ih =>
    intro low high hlh hfuel
    by_cases heq : low = high
    · subst heq
      rw [recurse_work, if_pos rfl]
      simp
    · have hstep := recurse_work_step input fuel low high heq
      have hm1 : low ≤ (low + high) / 2 := by omega
      have hm2 : (low + high) / 2 < high := by omega
      have hm3 : (low + high) / 2 - low + 1 = (high - low + 1 + 2 - 1) / 2 := by omega
      generalize (low + high) / 2 = m at hm1 hm2 hm3 hstep
      have gL := ih low m hm1 (by omega)
      have gR := ih (m + 1) high (by omega) (by omega)
      have gC := crossing_work_le input hB low m high hm1 hm2
      have hclog : Nat.clog 2 (high - low + 1) = Nat.clog 2 (m - low + 1) + 1 := by
        rw [Nat.clog_of_two_le (by norm_num) (by omega), hm3]
      have hcR : Nat.clog 2 (high - (m + 1) + 1) ≤ Nat.clog 2 (m - low + 1) :=
        Nat.clog_mono_right 2 (by omega)
      have hlen : high - low + 1 = (m - low + 1) + (high - (m + 1) + 1) := by omega
      generalize Nat.clog 2 (m - low + 1) = cL at hclog hcR gL
      generalize Nat.clog 2 (high - (m + 1) + 1) = cR at hcR gR
      generalize m - low + 1 = a at hlen gL
      generalize high - (m + 1) + 1 = b at hlen gR
      rw [hclog, hlen]
      rw [hlen] at gC
      have hR2 : 2 * b * (cR + 1) ≤ 2 * b * (cL + 1) :=
        Nat.mul_le_mul_left _ (by omega)
      have e : 2 * (a + b) * (cL + 1 + 1) =
          2 * a * (cL + 1) + 2 * b * (cL + 1) + 2 * (a + b) := by ring
      rw [e]
      omega

/-- For a non-empty input whose absolute values sum to less than 9999999, the loop
iterations and constructor additions of `max_subarray_dbh` number at most
`2 * n * (⌈log₂ n⌉ + 1)`. -/
theorem dbh_work_le (input : List Int) (hne : input ≠ []) (hB : abs_sum input < 9999999) :
    dbh_work input ≤ 2 * input.length * (Nat.clog 2 input.length + 1) := by
  have hpos : 0 < input.length := List.length_pos.mpr hne
  have h := recurse_work_le input hB input.length 0 (input.length - 1) (Nat.zero_le _)
    (by omega)
  rw [show input.length - 1 - 0 + 1 = input.length by omega] at h
  exact h

theorem sentinel_pairs_length (k : Nat) : (sentinel_pairs k).length = 2 * k := by
  induction k with
  | zero => rfl
  | succ k ih =>
    rw [sentinel_pairs, List.length_append, ih]
    rfl

theorem sentinel_pairs_even (k t : Nat) (h : t < k) :
    (sentinel_pairs k).getD (2 * t) 0 = -10000000 := by
  induction k with
  | zero => omega
  | succ k ih =>
    rw [sentinel_pairs]
    by_cases ht : t < k
    · rw [List.getD_append _ _ _ _ (by rw [sentinel_pairs_length]; omega)]
      exact ih ht
    · have hk : t = k := by omega
      subst hk
      rw [List.getD_append_right _ _ _ _ (by rw [sentinel_pairs_length]),
        sentinel_pairs_length, Nat.sub_self]
      rfl

theorem sentinel_pairs_odd (k t : Nat) (h : t < k) :
    (sentinel_pairs k).getD (2 * t + 1) 0 = 10000001 := by
  induction k with
  | zero => omega
  | succ k ih =>
    rw [sentinel_pairs]
    by_cases ht : t < k
    · rw [List.getD_append _ _ _ _ (by rw [sentinel_pairs_length]; omega)]
      exact ih ht
    · have hk : t = k := by omega
      subst hk
      rw [List.getD_append_right _ _ _ _ (by rw [sentinel_pairs_length]; omega),
        sentinel_pairs_length, show 2 * t + 1 - 2 * t = 1 by omega]
      rfl

theorem scan_step_sum (input : List Int) (i : Nat) (s : scan_state) :
    (scan_step input i s).sum = wrap (s.sum + input.getD i 0) := by
  unfold scan_step
  dsimp only
  split <;> rfl

theorem scan_left_pairs_sum (k : Nat) :
    ∀ (j b : Nat) (s : scan_state), b < k → j ≤ b + 1 → 0 ≤ s.sum →
      s.sum + j + 10000001 < 2147483648 →
      (scan_left (sentinel_pairs k) (2 * j) (2 * b + 1) s).sum = s.sum + j := by
  intro j
  induction j with
  | zero => intro b s _ _ _ _; simp [scan_left]
  | succ j ih =>
    intro b s hb hj h0 hlt
    rw [show 2 * (j + 1) = 2 * j + 1 + 1 by omega, scan_left, scan_left,
      show 2 * b + 1 - 1 = 2 * b by omega]
    have h1 : (scan_step (sentinel_pairs k) (2 * b + 1) s).sum = s.sum + 10000001 := by
      rw [scan_step_sum, sentinel_pairs_odd k b hb]
      exact wrap_of_range (by omega) (by omega)
    have h2 : (scan_step (sentinel_pairs k) (2 * b)
        (scan_step (sentinel_pairs k) (2 * b + 1) s)).sum = s.sum + 1 := by
      rw [scan_step_sum, sentinel_pairs_even k b hb, h1]
      exact (wrap_of_range (by omega) (by omega)).trans (by ring)
    by_cases hj0 : j = 0
    · subst hj0
      rw [show 2 * 0 = 0 by rfl, scan_left, h2]
      push_cast
      ring
    · have hb1 : 2 * b - 1 = 2 * (b - 1) + 1 := by omega
      rw [hb1, ih (b - 1) _ (by omega) (by omega) (by rw [h2]; omega) (by rw [h2]; omega), h2]
      push_cast
      ring

theorem scan_right_first_pair (k u : Nat) (hu : u < k) (c : Int) (hc1 : 1 ≤ c)
    (hc2 : c + 10000001 < 2147483648) :
    scan_step (sentinel_pairs k) (2 * u + 1)
      (scan_step (sentinel_pairs k) (2 * u) ⟨c, -9999999, 0⟩) = ⟨c + 1, c + 1, 2 * u + 1⟩ := by
  have hw1 : wrap (c + -10000000) = c - 10000000 :=
    (wrap_of_range (by omega) (by omega)).trans (by ring)
  have hw2 : wrap (c - 10000000 + 10000001) = c + 1 :=
    (wrap_of_range (by omega) (by omega)).trans (by ring)
  unfold scan_step
  dsimp only
  rw [sentinel_pairs_even k u hu, hw1]
  by_cases h : c - 10000000 > -9999999
  · rw [if_pos h]
    dsimp only
    rw [sentinel_pairs_odd k u hu, hw2, if_pos (by omega)]
  · rw [if_neg h]
    dsimp only
    rw [sentinel_pairs_odd k u hu, hw2, if_pos (by omega)]

theorem sentinel_leaf_scans (k t : Nat) (ht : t < k) :
    scan_left (sentinel_pairs k) (2 * t + 1 - 2 * t) (2 * t) ⟨0, -9999999, 0⟩ =
        ⟨-10000000, -9999999, 0⟩ ∧
      scan_right (sentinel_pairs k) (2 * t + 1 - 2 * t) (2 * t + 1)
        ⟨-10000000, -9999999, 0⟩ = ⟨1, 1, 2 * t + 1⟩ := by
  rw [show 2 * t + 1 - 2 * t = 1 by omega]
  constructor
  · rw [scan_left, scan_left, scan_step]
    dsimp only
    rw [sentinel_pairs_even k t ht]
    rfl
  · rw [scan_right, scan_right, scan_step]
    dsimp only
    rw [sentinel_pairs_odd k t ht]
    rfl

/-- On the input of `k` pairs `-10000000, 10000001`, the call of
`maximum_subarray_crossing` on the two-element range `[2t, 2t+1]` leaves `begin = 0` and
builds the span `[0, 2t+2)`: with its two loop iterations it performs `2t + 4` steps. -/
theorem crossing_work_sentinel_pair (k t : Nat) (ht : t < k) :
    crossing_work (sentinel_pairs k) (2 * t) (2 * t) (2 * t + 1) = 2 * t + 4 ∧
      maximum_subarray_crossing (sentinel_pairs k) (2 * t) (2 * t) (2 * t + 1) =
        Outcome.ret ⟨0, 2 * t + 2, accumulate (slice (sentinel_pairs k) 0 (2 * t + 2))⟩ := by
  obtain ⟨h1, h2⟩ := sentinel_leaf_scans k t ht
  constructor
  · unfold crossing_work
    dsimp only
    rw [h1]
    dsimp only
    rw [h2]
    dsimp only
    omega
  · unfold maximum_subarray_crossing
    dsimp only
    rw [h1]
    dsimp only
    rw [h2]
    dsimp only
    unfold summed_span.mk2
    rw [if_pos (by omega)]

theorem sentinel_block_crossing (k s h : Nat) (hh : 1 ≤ h) (hk : s + 2 * h ≤ k)
    (hsmall : k ≤ 1000000000) (low m high : Nat) (hlow : low = 2 * s)
    (hm : m = 2 * (s + h - 1) + 1) (hhigh : high = m + 2 * h) :
    ∃ C, maximum_subarray_crossing (sentinel_pairs k) low m high = Outcome.ret C := by
  unfold maximum_subarray_crossing
  dsimp only
  have e1 : m + 1 - low = 2 * h := by omega
  have e2 : high - m = 2 * h - 2 + 1 + 1 := by omega
  have e3 : m + 1 = 2 * (s + h) := by omega
  rw [e1, e2, e3]
  have hl := scan_left_pairs_sum k h (s + h - 1) ⟨0, -9999999, 0⟩ (by omega) (by omega)
    (le_refl _) (by dsimp only; omega)
  have hli := scan_left_idx (sentinel_pairs k) (2 * h) m ⟨0, -9999999, 0⟩ (by omega)
  rw [← hm] at hl
  generalize scan_left (sentinel_pairs k) (2 * h) m ⟨0, -9999999, 0⟩ = l at hl hli
  dsimp only at hl hli
  rw [scan_right, scan_right, hl, zero_add,
    scan_right_first_pair k (s + h) (by omega) (h : Int) (by omega) (by omega)]
  have hri := scan_right_idx (sentinel_pairs k) (2 * h - 2) (2 * (s + h) + 1 + 1)
    ⟨(h : Int) + 1, (h : Int) + 1, 2 * (s + h) + 1⟩
  generalize scan_right (sentinel_pairs k) (2 * h - 2) (2 * (s + h) + 1 + 1)
    ⟨(h : Int) + 1, (h : Int) + 1, 2 * (s + h) + 1⟩ = r at hri
  dsimp only at hri
  unfold summed_span.mk2
  rw [if_pos (by omega)]
  exact ⟨_, rfl⟩

theorem recurse_base (input : List Int) (fuel i : Nat) :
    maximum_subarray_recurse input (fuel + 1) i i =
      Outcome.ret ⟨i, i + 1, accumulate (slice input i (i + 1))⟩ := by
  rw [maximum_subarray_recurse, if_pos rfl, summed_span.mk2, if_pos (Nat.lt_succ_self i)]

theorem recurse_of_parts (input : List Int) (fuel low high m : Nat) (L R C : summed_span)
    (hne : low ≠ high) (hmid : (low + high) / 2 = m)
    (hL : maximum_subarray_recurse input fuel low m = Outcome.ret L)
    (hR : maximum_subarray_recurse input fuel (m + 1) high = Outcome.ret R)
    (hC : maximum_subarray_crossing input low m high = Outcome.ret C) :
    (∃ r, maximum_subarray_recurse input (fuel + 1) low high = Outcome.ret r) ∧
      recurse_work input (fuel + 1) low high =
        recurse_work input fuel low m + recurse_work input fuel (m + 1) high +
          crossing_work input low m high := by
  constructor
  · rw [maximum_subarray_recurse, if_neg hne]
    dsimp only
    rw [hmid, hL]
    dsimp only
    rw [hR]
    dsimp only
    rw [hC]
    dsimp only
    split
    · exact ⟨_, rfl⟩
    · split <;> exact ⟨_, rfl⟩
  · rw [recurse_work, if_neg hne]
    dsimp only
    rw [hmid, hL]
    dsimp only
    rw [hR]

theorem recurse_work_base (input : List Int) (fuel i : Nat) :
    recurse_work input (fuel + 1) i i = 1 := by
  rw [recurse_work, if_pos rfl]

theorem sentinel_pair_work (k s fuel : Nat) (hs : s < k) :
    (∃ r, maximum_subarray_recurse (sentinel_pairs k) (fuel + 2) (2 * s) (2 * s + 1) =
        Outcome.ret r) ∧
      recurse_work (sentinel_pairs k) (fuel + 2) (2 * s) (2 * s + 1) = 2 * s + 6 := by
  obtain ⟨h1, h2⟩ := crossing_work_sentinel_pair k s hs
  have hp := recurse_of_parts (sentinel_pairs k) (fuel + 1) (2 * s) (2 * s + 1) (2 * s) _ _ _
    (by omega) (by omega) (recurse_base _ fuel (2 * s)) (recurse_base _ fuel (2 * s + 1)) h2
  refine ⟨hp.1, ?_⟩
  rw [hp.2, recurse_work_base, recurse_work_base, h1]
  omega

theorem sentinel_block_work (k : Nat) (hsmall : k ≤ 1000000000) :
    ∀ (q s fuel : Nat), s + 2 ^ q ≤ k → 2 * 2 ^ q - 1 < fuel →
      (∃ r, maximum_subarray_recurse (sentinel_pairs k) fuel (2 * s) (2 * s + 2 * 2 ^ q - 1) =
          Outcome.ret r) ∧
        2 * 2 ^ q * s + 2 ^ q * 2 ^ q ≤
          recurse_work (sentinel_pairs k) fuel (2 * s) (2 * s + 2 * 2 ^ q - 1) := by
  intro q
  induction q with
  | zero =>
    intro s fuel hs hfuel
    rw [pow_zero] at hs hfuel ⊢
    obtain ⟨f, rfl⟩ : ∃ f, fuel = f + 2 := ⟨fuel - 2, by omega⟩
    obtain ⟨h1, h2⟩ := sentinel_pair_work k s f (by omega)
    rw [show 2 * s + 2 * 1 - 1 = 2 * s + 1 by omega]
    exact ⟨h1, by rw [h2]; omega⟩
  | succ q ih =>
    intro s fuel hs hfuel
    have hpos : 1 ≤ 2 ^ q := Nat.one_le_two_pow
    rw [pow_succ] at hs hfuel ⊢
    generalize 2 ^ q = h at hs hfuel hpos ih ⊢
    obtain ⟨f, rfl⟩ : ∃ f, fuel = f + 1 := ⟨fuel - 1, by omega⟩
    obtain ⟨⟨L, hL⟩, wL⟩ := ih s f (by omega) (by omega)
    obtain ⟨⟨R, hR⟩, wR⟩ := ih (s + h) f (by omega) (by omega)
    have em : 2 * s + 2 * h - 1 = 2 * (s + h - 1) + 1 := by omega
    obtain ⟨C, hC⟩ := sentinel_block_crossing k s h hpos (by omega) hsmall (2 * s)
      (2 * s + 2 * h - 1) (2 * s + 2 * (h * 2) - 1) rfl em (by omega)
    have eR : 2 * (s + h) = 2 * s + 2 * h - 1 + 1 := by omega
    have eH : 2 * s + 2 * h - 1 + 1 + 2 * h - 1 = 2 * s + 2 * (h * 2) - 1 := by omega
    rw [eR, eH] at hR wR
    have hp := recurse_of_parts (sentinel_pairs k) f (2 * s) (2 * s + 2 * (h * 2) - 1)
      (2 * s + 2 * h - 1) L R C (by omega) (by omega) hL hR hC
    refine ⟨hp.1, ?_⟩
    rw [hp.2]
    have e : 2 * (h * 2) * s + h * 2 * (h * 2) =
        (2 * h * s + h * h) + (2 * h * (s + h) + h * h) := by ring
    rw [e]
    omega

theorem sentinel_pairs_ne_nil (k : Nat) (hk : 1 ≤ k) : sentinel_pairs k ≠ [] := by
  intro h
  have := sentinel_pairs_length k
  rw [h] at this
  simp at this
  omega

/-- C14 (code defect): on the input of `2^p` pairs `-10000000, 10000001` (`n = 2 * 2^p`
elements, `p ≤ 29`) every call of `maximum_subarray_crossing` on a two-element range
`[2t, 2t+1]` performs `2t + 4` steps, because `begin` keeps its initial value 0 and the
constructor sums the span `[0, 2t+2)`; the loop iterations and constructor additions of
`max_subarray_dbh` on this input number at least `2^p * 2^p = n² / 4`. -/
theorem dbh_work_quadratic (p : Nat) (hp : p ≤ 29) :
    (sentinel_pairs (2 ^ p)).length = 2 * 2 ^ p ∧
      (∀ t, t < 2 ^ p →
        crossing_work (sentinel_pairs (2 ^ p)) (2 * t) (2 * t) (2 * t + 1) = 2 * t + 4) ∧
      2 ^ p * 2 ^ p ≤ dbh_work (sentinel_pairs (2 ^ p)) := by
  have hpow : 2 ^ p ≤ 2 ^ 29 := Nat.pow_le_pow_right (by norm_num) hp
  have hpos : 1 ≤ 2 ^ p := Nat.one_le_two_pow
  refine ⟨sentinel_pairs_length _, fun t ht => (crossing_work_sentinel_pair _ t ht).1, ?_⟩
  have h := (sentinel_block_work (2 ^ p) (by omega) p 0 (2 * 2 ^ p) (by omega) (by omega)).2
  unfold dbh_work
  rw [sentinel_pairs_length]
  rw [show 2 * 0 = 0 by rfl, Nat.mul_zero, Nat.zero_add, Nat.zero_add] at h
  exact h

theorem dbh_work_quadratic_witness :
    2 ≤ 29 ∧ (sentinel_pairs (2 ^ 2)).length = 2 * 2 ^ 2 ∧
      (∀ t, t < 2 ^ 2 →
        crossing_work (sentinel_pairs (2 ^ 2)) (2 * t) (2 * t) (2 * t + 1) = 2 * t + 4) ∧
      2 ^ 2 * 2 ^ 2 ≤ dbh_work (sentinel_pairs (2 ^ 2)) :=
  ⟨by decide, dbh_work_quadratic 2 (by decide)⟩

end subarray
